import Mathlib

/-!
Verification of the ArduPilot DataFlash log reader (`DFReader.py`).

Modelling conventions, used consistently below:
* Python numbers: machine integers are `Int` (struct packing applies explicit
  two's-complement range checks and reduction modulo 2^(8k), exactly as
  `struct.pack`/`struct.unpack` do); Python floats are modelled as exact
  rationals `ℚ` (the claims under study are about the arithmetic the code
  performs, not about IEEE-754 rounding error).
* Python strings and byte strings are both modelled as byte sequences
  (`List Nat`); the UTF-8/Latin-1 decoding step of `__getattr__` is a
  bijection on the byte level and is modelled as the identity.
* The wire stream is a list of `WItem`.  Integer and string fields occupy
  genuine bytes (`WItem.byte`).  The 2/4/8 IEEE-754 bytes of a `g`/`f`/`d`
  float field are modelled as an opaque block of items `WItem.fbyte x j`
  (j = 0 .. size-1) determined by the exact value `x`; packing a decoded
  float back to its bytes is exact in IEEE-754, which this models.
* Exceptions are modelled with `Option`.
-/

namespace DF

/-- A decoded Python field value: int, float (exact rational), byte-string,
or a 16-bit integer array (the `array.array('h')` produced for `a` fields). -/
inductive DFValue where
  | i (n : Int)
  | q (x : ℚ)
  | s (bs : List Nat)
  | arr (xs : List Int)
  deriving DecidableEq, Repr

/-- One item of the modelled wire stream (see the header comment). -/
inductive WItem where
  | byte (n : Nat)
  | fbyte (x : ℚ) (j : Nat)
  deriving DecidableEq, Repr

/-- The struct-level type of one format character: signed/unsigned integer,
IEEE float, or fixed-size string, with its on-wire byte count. -/
inductive SType where
  | sint (k : Nat)
  | uint (k : Nat)
  | flt (k : Nat)
  | strT (k : Nat)
  deriving DecidableEq, Repr

/-- The Python-level type `FORMAT_TO_STRUCT` associates to a format char
(`int`, `float`, `str`), plus `array.array` which `DFFormat.__init__`
substitutes for `a` columns. -/
inductive PyTy where
  | pint
  | pfloat
  | pstr
  | parr
  deriving DecidableEq, Repr

/-- `FORMAT_TO_STRUCT`: struct layout, optional scalar multiplier, Python
type for each format character (`DFReader.py` lines 36-58).  `none` for an
unsupported character (the `KeyError` branch of `DFFormat.__init__`). -/
def FORMAT_TO_STRUCT (c : Char) : Option (SType × Option ℚ × PyTy) :=
  if c = 'a' then some (.strT 64, none, .pstr)
  else if c = 'b' then some (.sint 1, none, .pint)
  else if c = 'B' then some (.uint 1, none, .pint)
  else if c = 'g' then some (.flt 2, none, .pfloat)
  else if c = 'h' then some (.sint 2, none, .pint)
  else if c = 'H' then some (.uint 2, none, .pint)
  else if c = 'i' then some (.sint 4, none, .pint)
  else if c = 'I' then some (.uint 4, none, .pint)
  else if c = 'f' then some (.flt 4, none, .pfloat)
  else if c = 'n' then some (.strT 4, none, .pstr)
  else if c = 'N' then some (.strT 16, none, .pstr)
  else if c = 'Z' then some (.strT 64, none, .pstr)
  else if c = 'c' then some (.sint 2, some (1/100), .pfloat)
  else if c = 'C' then some (.uint 2, some (1/100), .pfloat)
  else if c = 'e' then some (.sint 4, some (1/100), .pfloat)
  else if c = 'E' then some (.uint 4, some (1/100), .pfloat)
  else if c = 'L' then some (.sint 4, some (1/10000000), .pfloat)
  else if c = 'd' then some (.flt 8, none, .pfloat)
  else if c = 'M' then some (.sint 1, none, .pint)
  else if c = 'q' then some (.sint 8, none, .pint)
  else if c = 'Q' then some (.uint 8, none, .pint)
  else none

/-- The struct type of a format char (first component of the table). -/
def charSType (c : Char) : Option SType := (FORMAT_TO_STRUCT c).map (·.1)

/-- The scalar multiplier of a format char (second component). -/
def charMult (c : Char) : Option ℚ :=
  (FORMAT_TO_STRUCT c).bind (fun p => p.2.1)

/-- `msg_types[i]`: the Python type of column `i`; `DFFormat.__init__`
replaces the table's entry with `array.array` for `a` columns. -/
def msgType (c : Char) : Option PyTy :=
  if c = 'a' then some .parr else (FORMAT_TO_STRUCT c).map (·.2.2)

/-- On-wire byte count of one format char. -/
def charSize (c : Char) : Option Nat :=
  (charSType c).map (fun t => match t with
    | .sint k => k | .uint k => k | .flt k => k | .strT k => k)

/-- Total on-wire byte count of a format (the size `struct.calcsize` gives
for `msg_struct`). -/
def wireSize (format : List Char) : Option Nat :=
  format.foldr (fun c acc => do pure ((← charSize c) + (← acc))) (some 0)

/-- `MULT_TO_PREFIX` (`DFReader.py` lines 60-68, abbreviated name here):
multiplier value to SI unit-prefix string. -/
def MULT_TO_PFX (m : ℚ) : Option String :=
  if m = 0 then some ""
  else if m = 1 then some ""
  else if m = 1/10 then some "d"
  else if m = 1/100 then some "c"
  else if m = 1/1000 then some "m"
  else if m = 1/1000000 then some "µ"
  else if m = 1/1000000000 then some "n"
  else none

/-- `null_term`: truncate a byte string at its first NUL
(`DFReader.py` lines 197-204). -/
def nullTerm (bs : List Nat) : List Nat := bs.takeWhile (· ≠ 0)

/-- `null_term` lifted to a `DFValue` (identity on non-strings, as the code
only reaches it for `str`-typed values). -/
def nullTermV : DFValue → DFValue
  | .s bs => .s (nullTerm bs)
  | v => v

/-- A byte string as a `String` of Latin-1 code points, for format/column
strings that the reader manipulates as text. -/
def strBytes (s : String) : List Nat := s.toList.map Char.toNat

/-- Worker for `pySplit`; the fuel (at least the input length) only makes
the recursion structural. -/
def pySplitAux (delim : List Char) : Nat → List Char → List Char → List (List Char)
  | _, [], acc => [acc.reverse]
  | 0, s, acc => [acc.reverse ++ s]
  | fuel + 1, c :: rest, acc =>
    if delim.isPrefixOf (c :: rest) then
      acc.reverse :: pySplitAux delim fuel ((c :: rest).drop delim.length) []
    else pySplitAux delim fuel rest (c :: acc)

/-- Python `str.split(sep)` for a non-empty separator: split at each
left-to-right non-overlapping occurrence. -/
def pySplit (s delim : String) : List String :=
  (pySplitAux delim.toList s.toList.length s.toList []).map String.mk

/-- Python `int()` truncation of a float toward zero. -/
def ratTrunc (x : ℚ) : Int := if 0 ≤ x then ⌊x⌋ else -⌊-x⌋

/-- Parse an optionally signed run of decimal digits, Python `int(str)`. -/
def parsePyInt (bs : List Nat) : Option Int :=
  let core (ds : List Nat) : Option Nat :=
    if ds = [] ∨ ¬ ds.all (fun d => 48 ≤ d ∧ d ≤ 57) then none
    else some (ds.foldl (fun a d => a * 10 + (d - 48)) 0)
  match bs with
  | 45 :: rest => (core rest).map (fun n => -(n : Int))
  | 43 :: rest => (core rest).map (fun n => (n : Int))
  | _ => (core bs).map (fun n => (n : Int))

/-- Parse a decimal literal `[sign] digits [. digits] [(e|E) [sign] digits]`
into an exact rational, Python `float(str)` on the forms log files contain. -/
def parsePyFloat (bs : List Nat) : Option ℚ :=
  let isDig (d : Nat) : Bool := 48 ≤ d ∧ d ≤ 57
  let digVal (ds : List Nat) : Nat := ds.foldl (fun a d => a * 10 + (d - 48)) 0
  let (sgn, bs) : ℚ × List Nat :=
    match bs with
    | 45 :: rest => (-1, rest)
    | 43 :: rest => (1, rest)
    | _ => (1, bs)
  let ip := bs.takeWhile isDig
  let bs := bs.dropWhile isDig
  let (fp, bs) : List Nat × List Nat :=
    match bs with
    | 46 :: rest => (rest.takeWhile isDig, rest.dropWhile isDig)
    | _ => ([], bs)
  let expPart : Option Int :=
    match bs with
    | [] => some 0
    | 101 :: rest | 69 :: rest =>
      match rest with
      | 45 :: ds => if ds ≠ [] ∧ ds.all isDig then some (-(digVal ds : Int)) else none
      | 43 :: ds => if ds ≠ [] ∧ ds.all isDig then some (digVal ds : Int) else none
      | ds => if ds ≠ [] ∧ ds.all isDig then some (digVal ds : Int) else none
    | _ => none
  match expPart with
  | none => none
  | some ex =>
    if ip = [] ∧ fp = [] then none
    else
      let mant : ℚ := (digVal ip : ℚ) + (digVal fp : ℚ) / ((10 : ℚ) ^ fp.length)
      some (sgn * mant * (10 : ℚ) ^ ex)

/-- Python type conversion `msg_types[i](v)` as applied by `__getattr__`:
`int(v)`, `float(v)`, `str(v)`, or the `array` pass-through. -/
def convPy (t : PyTy) (v : DFValue) : Option DFValue :=
  match t, v with
  | .pint, .i e => some (.i e)
  | .pint, .q x => some (.i (ratTrunc x))
  | .pint, .s bs => (parsePyInt bs).map .i
  | .pfloat, .i e => some (.q (e : ℚ))
  | .pfloat, .q x => some (.q x)
  | .pfloat, .s bs => (parsePyFloat bs).map .q
  | .pstr, .s bs => some (.s bs)
  | .parr, .arr xs => some (.arr xs)
  | _, _ => none

/-- `DFFormat`: the decoded schema record for one message type
(`DFFormat.__init__`, lines 80-131).  `format` doubles as `msg_fmts`
(the Python source iterates the same characters); `colhash` and the
derived `msg_types`/`a_indexes` are recomputed from these fields. -/
structure DFFormat where
  type : Nat
  name : String
  len : Nat
  format : List Char
  columns : List String
  msg_mults : List (Option ℚ)
  instance_field : Option String
  instance_ofs : Nat
  instance_len : Nat
  units : Option (List String)
  deriving DecidableEq, Repr

/-- `colhash[field]`: the column index of a field name.  The Python dict is
filled left to right, so a duplicated name maps to its **last** index. -/
def colIndex (cols : List String) (field : String) : Option Nat :=
  ((cols.enum.filter (fun p => p.2 = field)).getLast?).map Prod.fst

/-- `a_indexes`: positions of `a` columns in the format. -/
def aIndexes (format : List Char) : List Nat :=
  (format.enum.filter (fun p => p.2 = 'a')).map Prod.fst

/-- `DFFormat.set_instance_field` (lines 133-144): record the instance
column name and precompute its byte offset and length; `none` when an
index is out of range (a Python `IndexError`). -/
def set_instance_field (fmt : DFFormat) (instance_idx : Nat) : Option DFFormat := do
  let fname ← fmt.columns.get? instance_idx
  let ofs ← wireSize (fmt.format.take instance_idx)
  let ic ← fmt.format.get? instance_idx
  let ilen ← charSize ic
  pure { fmt with instance_field := some fname, instance_ofs := ofs, instance_len := ilen }

/-- `DFFormat.__init__` (lines 81-131): build a format record from the FMT
fields; `none` models the unsupported-format-char exception and the
`KeyError` when copying an old instance field absent from the new columns. -/
def mkDFFormat (type : Nat) (name : List Nat) (flen : Nat) (format : String)
    (columnsRaw : String) (oldfmt : Option DFFormat) : Option DFFormat := do
  let columns := pySplit columnsRaw ","
  let columns := if columns = [""] then [] else columns
  if ¬ format.toList.all (fun c => (FORMAT_TO_STRUCT c).isSome) then none
  else do
  let mults := format.toList.map charMult
  let base : DFFormat :=
    { type := type
      name := String.mk ((nullTerm name).map Char.ofNat)
      len := flen
      format := format.toList
      columns := columns
      msg_mults := mults
      instance_field := none
      instance_ofs := 0
      instance_len := 0
      units := none }
  match oldfmt with
  | none => pure base
  | some old =>
    let base := { base with units := old.units }
    match old.instance_field with
    | none => pure base
    | some f => do
      let idx ← colIndex columns f
      set_instance_field base idx

/-- A decoded message (`DFMessage.__init__`, lines 207-213): its format,
ordered elements, and whether multipliers are applied on access. -/
structure DFMessage where
  fmt : DFFormat
  elements : List DFValue
  applyMult : Bool
  deriving DecidableEq, Repr

/-- The multiplier application step of `__getattr__` (lines 246-254):
divide by the reciprocal when `0 < mult < 1`, else multiply. -/
def scaleMult (mul : ℚ) (v : DFValue) : Option DFValue :=
  let f (x : ℚ) : ℚ := if 0 < mul ∧ mul < 1 then x / (1/mul) else x * mul
  match v with
  | .q x => some (.q (f x))
  | .i e => some (.q (f (e : ℚ)))
  | _ => none

/-- `DFMessage.__getattr__` (lines 223-255): look the field up in `colhash`,
special-case `FILE.Z` raw bytes, convert via the column's Python type
(`M` only when multipliers apply), null-terminate strings, then apply the
scalar multiplier when `_apply_multiplier` is set.  `none` models
`AttributeError`/`IndexError`/conversion errors. -/
def getField (m : DFMessage) (field : String) : Option DFValue := do
  let i ← colIndex m.fmt.columns field
  let v0 ← m.elements.get? i
  let c ← m.fmt.format.get? i
  if c = 'Z' ∧ m.fmt.name = "FILE" then
    pure v0
  else
    let ty ← msgType c
    let v1 ←
      if c = 'a' then pure v0
      else if c ≠ 'M' ∨ m.applyMult then convPy ty v0
      else pure v0
    let v2 := if ty = .pstr then nullTermV v1 else v1
    let mul ← m.fmt.msg_mults.get? i
    match mul with
    | some mu => if m.applyMult then scaleMult mu v2 else pure v2
    | none => pure v2

/-- First-match association lookup (Python `dict` read / `in`). -/
def lookupAssoc {α β : Type} [DecidableEq α] (l : List (α × β)) (k : α) : Option β :=
  (l.find? (fun p => p.1 = k)).map (·.2)

/-- Association update (Python `dict` write): replace any binding of `k`. -/
def insertAssoc {α β : Type} [DecidableEq α] (l : List (α × β)) (k : α) (v : β) :
    List (α × β) :=
  (l.filter (fun p => ¬ p.1 = k)) ++ [(k, v)]

/-- Byte list to `String` (one character per byte, Latin-1 style). -/
def bytesToStr (bs : List Nat) : String := String.mk (bs.map Char.ofNat)

/-- Little-endian digits of `n` in base 256, padded/truncated to `k` bytes. -/
def natToLE : Nat → Nat → List Nat
  | 0, _ => []
  | k + 1, n => (n % 256) :: natToLE k (n / 256)

/-- Value of a little-endian byte list. -/
def leToNat : List Nat → Nat
  | [] => 0
  | b :: rest => b + 256 * leToNat rest

/-- Python 3 `round` to an integer: round half to even. -/
def pyRound (x : ℚ) : Int :=
  let f := ⌊x⌋
  let r := x - f
  if r < 1/2 then f
  else if 1/2 < r then f + 1
  else if f % 2 = 0 then f else f + 1

/-- `struct.pack` of one integer slot: range-check (struct.error when out of
range, hence `none`), then two's-complement little-endian bytes. -/
def packInt (st : SType) (v : Int) : Option (List WItem) :=
  match st with
  | .sint k =>
    if -(2 ^ (8 * k - 1) : Int) ≤ v ∧ v < (2 ^ (8 * k - 1) : Int) then
      some ((natToLE k (v % (2 ^ (8 * k) : Int)).toNat).map .byte)
    else none
  | .uint k =>
    if 0 ≤ v ∧ v < (2 ^ (8 * k) : Int) then
      some ((natToLE k v.toNat).map .byte)
    else none
  | _ => none

/-- The opaque item block modelling the IEEE-754 bytes of float value `x`
in a `k`-byte float slot. -/
def fblock (x : ℚ) (k : Nat) : List WItem := (List.range k).map (WItem.fbyte x)

/-- `struct.pack` of one slot.  Strings are truncated/NUL-padded to the
field width exactly as `struct.pack("ks", ...)` does. -/
def packSType (st : SType) (v : DFValue) : Option (List WItem) :=
  match st, v with
  | .sint k, .i e => packInt (.sint k) e
  | .uint k, .i e => packInt (.uint k) e
  | .flt k, .q x => some (fblock x k)
  | .strT k, .s bs => some ((bs.take k ++ List.replicate (k - bs.length) 0).map .byte)
  | _, _ => none

/-- Take `k` genuine bytes off the item stream (failing on a float block,
whose items are not bytes). -/
def takeBytes : Nat → List WItem → Option (List Nat × List WItem)
  | 0, ws => some ([], ws)
  | k + 1, .byte b :: ws => (takeBytes k ws).map (fun p => (b :: p.1, p.2))
  | _ + 1, _ => none

/-- `struct.unpack` of one slot: bytes to signed/unsigned integer, fixed
string, or a float block carrying its exact value. -/
def unpackSType (st : SType) (ws : List WItem) : Option (DFValue × List WItem) :=
  match st with
  | .sint k => do
    let (bs, rest) ← takeBytes k ws
    let n := leToNat bs
    pure (.i (if 2 ^ (8 * k - 1) ≤ n then (n : Int) - (2 ^ (8 * k) : Int) else (n : Int)), rest)
  | .uint k => do
    let (bs, rest) ← takeBytes k ws
    pure (.i (leToNat bs : Int), rest)
  | .strT k => do
    let (bs, rest) ← takeBytes k ws
    pure (.s bs, rest)
  | .flt k =>
    match ws with
    | .fbyte x 0 :: _ =>
      if ws.take k = fblock x k then some (.q x, ws.drop k) else none
    | _ => none

/-- `struct.pack(msg_struct, *values)`: pack each value against its format
char; arity mismatch or a bad slot is a struct.error (`none`). -/
def packSeq : List Char → List DFValue → Option (List WItem)
  | [], [] => some []
  | c :: cs, v :: vs => do
    let st ← charSType c
    let w ← packSType st v
    let ws ← packSeq cs vs
    pure (w ++ ws)
  | _, _ => none

/-- `struct.unpack(msg_struct, body)`: the body must be consumed exactly. -/
def unpackSeq : List Char → List WItem → Option (List DFValue)
  | [], [] => some []
  | [], _ :: _ => none
  | c :: cs, ws => do
    let st ← charSType c
    let (v, rest) ← unpackSType st ws
    let vs ← unpackSeq cs rest
    pure (v :: vs)

/-- `array.array('h').tobytes()` on a little-endian platform. -/
def int16LE (v : Int) : List Nat := natToLE 2 ((v % (65536 : Int)).toNat)

/-- Bytes of a whole int16 array. -/
def arrBytes (xs : List Int) : List Nat := (xs.map int16LE).flatten

/-- `array.array('h', bytes)`: reassemble little-endian int16 pairs. -/
def bytesToInt16s : List Nat → List Int
  | b0 :: b1 :: rest =>
    (let n := b0 + 256 * b1
     if 32768 ≤ n then (n : Int) - 65536 else (n : Int)) :: bytesToInt16s rest
  | _ => []

/-- The element list `get_msgbuf` builds (lines 404-423): per column, swap
`Mode` for `ModeNum` when both exist, read the field through `__getattr__`,
turn strings/arrays into bytes, and divide-and-round multiplier-scaled
values back to integers. -/
def msgbufValue1 (m : DFMessage) (i : Nat) : Option DFValue := do
  let mul ← m.fmt.msg_mults.get? i
  let name ← m.fmt.columns.get? i
  let name := if name = "Mode" ∧ m.fmt.columns.contains "ModeNum" then "ModeNum" else name
  let v ← getField m name
  let v : DFValue :=
    match v with
    | .arr xs => .s (arrBytes xs)
    | w => w
  match mul with
  | none => pure v
  | some mu => do
    let x ← (match v with
      | .q x => some x
      | .i e => some ((e : ℚ))
      | _ => none)
    pure (DFValue.i (pyRound (x / mu)))

/-- The loop of `get_msgbuf` over column indices (positions at or past the
end of `msg_mults` are skipped by the `continue`). -/
def msgbufValues (m : DFMessage) : List Nat → Option (List DFValue)
  | [] => some []
  | i :: rest =>
    if m.fmt.msg_mults.length ≤ i then msgbufValues m rest
    else do
      let v ← msgbufValue1 m i
      let vs ← msgbufValues m rest
      pure (v :: vs)

/-- `DFMessage.get_msgbuf` (lines 402-430): `0xA3 0x95 <type>` followed by
the packed field values; `none` on any packing failure. -/
def getMsgbuf (m : DFMessage) : Option (List WItem) := do
  let values ← msgbufValues m (List.range m.fmt.columns.length)
  if m.fmt.type ≤ 255 then do
    let ret2 ← packSeq m.fmt.format values
    pure ([WItem.byte 0xA3, WItem.byte 0x95, WItem.byte m.fmt.type] ++ ret2)
  else none

/-- `DFFormat.set_unit_ids` (lines 146-159): a `'#'` in the unit-id string
selects the instance field; each column whose unit id is in the lookup gets
that unit, others get `""`. -/
def set_unit_ids (fmt : DFFormat) (unit_ids : Option String)
    (unit_lookup : List (Char × String)) : Option DFFormat := do
  match unit_ids with
  | none => pure fmt
  | some uids =>
    let fmt ← match uids.toList.indexOf? '#' with
      | some idx => set_instance_field fmt idx
      | none => pure fmt
    let units := (List.range fmt.columns.length).map (fun i =>
      match uids.toList.get? i with
      | some u =>
        match lookupAssoc unit_lookup u with
        | some lbl => lbl
        | none => ""
      | none => "")
    pure { fmt with units := some units }

/-- The `"%.4g %s"` fallback rendering of `set_mult_ids` for a multiplier
with no SI prefix.  The numeric formatting itself is opaque to every claim
below (never exercised); it is modelled by `toString` on the exact rational. -/
def pctG4 (m : ℚ) : String := toString m

/-- `DFFormat.set_mult_ids` (lines 161-176): prepend the SI prefix of each
column's multiplier to its unit, skipping columns with a built-in scalar
multiplier or an empty unit.  `none` models the IndexError/TypeError paths
(short `mult_ids`, `units` not yet set). -/
def set_mult_ids (fmt : DFFormat) (mult_ids : String)
    (mult_lookup : List (Char × ℚ)) : Option DFFormat := do
  match fmt.units with
  | none => none
  | some units => do
    let newUnits ← (List.range units.length).mapM (fun i => do
      let u ← units.get? i
      let mm ← fmt.msg_mults.get? i
      match mm with
      | some _ => pure u
      | none =>
        if u = "" then pure u
        else do
          let mc ← mult_ids.toList.get? i
          match lookupAssoc mult_lookup mc with
          | none => pure u
          | some unitmult =>
            match MULT_TO_PFX unitmult with
            | some p => pure (p ++ u)
            | none => pure (pctG4 unitmult ++ " " ++ u))
    pure { fmt with units := some newUnits }

/-- Fuelled decimal logarithm (kernel-reducible, unlike `Nat.log`). -/
def log10F : Nat → Nat → Nat
  | 0, _ => 0
  | fuel + 1, n => if n < 10 then 0 else log10F fuel (n / 10) + 1

/-- Decimal logarithm: the number of decimal digits of `n`, minus one. -/
def natLog10 (n : Nat) : Nat := log10F n n

/-- `float("%.7g" % x)`: round to 7 significant decimal digits
(half to even, as the C library does under round-to-nearest). -/
def round7sig (x : ℚ) : ℚ :=
  if x = 0 then 0
  else
    let a := |x|
    let sgn : ℚ := if x < 0 then -1 else 1
    let e0 : Int := (natLog10 a.num.natAbs : Int) - (natLog10 a.den : Int)
    let fit (e : Int) : Bool := (10 : ℚ) ^ e ≤ a ∧ a < (10 : ℚ) ^ (e + 1)
    let e : Int := if fit (e0 - 1) then e0 - 1 else if fit e0 then e0 else e0 + 1
    sgn * (pyRound (a / (10 : ℚ) ^ (e - 6)) : ℚ) * (10 : ℚ) ^ (e - 6)

/-- Processing one `UNIT` record into the unit lookup
(`init_arrays`, line 1255): key `chr(elements[1])`, value the
null-terminated label. -/
def unitLookupAdd (lk : List (Char × String)) (id : Nat) (label : List Nat) :
    List (Char × String) :=
  insertAssoc lk (Char.ofNat id) (bytesToStr (nullTerm label))

/-- Processing one `MULT` record into the multiplier lookup
(`init_arrays`, lines 1269-1270): key `chr(elements[1])`, value rounded to
7 significant digits. -/
def multLookupAdd (lk : List (Char × ℚ)) (id : Nat) (mult : ℚ) :
    List (Char × ℚ) :=
  insertAssoc lk (Char.ofNat id) (round7sig mult)

/-- The state of `DFReader_binary` that `_parse_next` reads and writes.
`skip_diags` records each resync event as
(skip start offset, offset where magic was re-found, diagnostic emitted?);
the printed text itself (skipped count, bad triple, previous good type) is
determined by these and `prev_type`. -/
structure BinReader where
  data_map : List WItem
  data_len : Nat
  offset : Nat
  remaining : Nat
  formats : List (Nat × DFFormat)
  unit_lookup : List (Char × String)
  mult_lookup : List (Char × ℚ)
  prev_type : Option Nat
  skip_diags : List (Nat × Nat × Bool)
  deriving DecidableEq, Repr

/-- The item at an offset, as a byte (`none` for a float item, which can
never equal a header byte). -/
def witemByte? : WItem → Option Nat
  | .byte n => some n
  | _ => none

/-- The `skip_type is not None` block at magic re-found (lines 1496-1504):
log the resync event, whose diagnostic is printed iff `remaining >= 528`,
and clear the skip region. -/
def skipEmitState (r : BinReader) (skip_start : Option Nat) : BinReader :=
  match skip_start with
  | some sstart =>
    { r with skip_diags :=
        r.skip_diags ++ [(sstart, r.offset, decide (528 ≤ r.remaining))] }
  | none => r

/-- Lines 1515-1517: open a skip region at the current offset unless one is
already open. -/
def skipStartNext (skip_start : Option Nat) (ofs : Nat) : Option Nat :=
  match skip_start with
  | none => some ofs
  | some s => some s

/-- The bad-message skip loop of `DFReader_binary._parse_next`
(lines 1487-1519).  Walks forward one byte at a time; when the magic is
re-found after skipped bytes it logs a resync event whose diagnostic is
printed iff `self.remaining >= 528`; stops at a recognised message type or
when fewer than 3 bytes remain.  `skip_start` carries `skip_start`
(`none` = `skip_type is None`). -/
def skipLoop : Nat → BinReader → Option Nat → BinReader × Option Nat
  | 0, r, _ => (r, none)
  | fuel + 1, r, skip_start =>
    if r.data_len - r.offset < 3 then (r, none)
    else
      if ((r.data_map.get? r.offset).bind witemByte? = some 0xA3) ∧
          ((r.data_map.get? (r.offset + 1)).bind witemByte? = some 0x95) then
        let r1 : BinReader := skipEmitState r skip_start
        match (r.data_map.get? (r.offset + 2)).bind witemByte? with
        | some t =>
          if (lookupAssoc r1.formats t).isSome then ({ r1 with prev_type := some t }, some t)
          else
            -- unknown type: fall through; these bytes start a fresh skip region
            skipLoop fuel { r1 with offset := r1.offset + 1, remaining := r1.remaining - 1 }
              (skipStartNext none r1.offset)
        | none =>
          skipLoop fuel { r1 with offset := r1.offset + 1, remaining := r1.remaining - 1 }
            (skipStartNext none r1.offset)
      else
        skipLoop fuel { r with offset := r.offset + 1, remaining := r.remaining - 1 }
          (skipStartNext skip_start r.offset)

/-- Registration of a decoded `FMT` record (lines 1558-1570): construct a
`DFFormat` from the five elements and store it under its type id; `none`
models the exception path (caught, leading to a retry). -/
def fmtRegister (formats : List (Nat × DFFormat)) (elements : List DFValue) :
    Option (List (Nat × DFFormat)) := do
  let e0 ← elements.get? 0
  let e1 ← elements.get? 1
  let e2 ← elements.get? 2
  let e3 ← elements.get? 3
  let e4 ← elements.get? 4
  match e0, e1, e2, e3, e4 with
  | .i ftypeI, .i flen, .s nm, .s fmtStr, .s cols =>
    let ftype := ftypeI.toNat
    let mfmt ← mkDFFormat ftype nm flen.toNat (bytesToStr (nullTerm fmtStr))
      (bytesToStr (nullTerm cols)) (lookupAssoc formats ftype)
    pure (insertAssoc formats ftype mfmt)
  | _, _, _, _, _ => none

/-- The `a`-column transform of `_parse_next` (lines 1551-1556): reinterpret
each `a` slot's bytes as an int16 array; on failure (odd byte count) the
element is left as is, as the exception is caught. -/
def applyATransform (fmt : DFFormat) (elements : List DFValue) : List DFValue :=
  elements.enum.map (fun p =>
    if p.1 ∈ aIndexes fmt.format then
      match p.2 with
      | .s bs => if bs.length % 2 = 0 then .arr (bytesToInt16s bs) else .s bs
      | v => v
    else p.2)

/-- The `FMTU` block of `_parse_next` (lines 1576-1584), embedded as
written: it reads `elements[0]` as the format type and `elements[1-2]` as
the id strings (which, against the real FMTU layout `QBNN`, makes the
`FmtType in self.formats` guard reject real records).  `none` models the
uncaught TypeError when a non-string reaches `set_unit_ids`. -/
def applyFMTUBlock (r : BinReader) (elements : List DFValue) : Option BinReader := do
  let e0 ← elements.get? 0
  let ftype ← (match e0 with
    | .i v => some v.toNat
    | .q x => some (ratTrunc x).toNat
    | _ => none)
  match lookupAssoc r.formats ftype with
  | none => pure r
  | some fmt2 => do
    let e1 ← elements.get? 1
    let e2 ← elements.get? 2
    match e1, e2 with
    | .s uids, .s mids => do
      let fmt2 ← set_unit_ids fmt2 (some (bytesToStr uids)) r.unit_lookup
      let fmt2 ← set_mult_ids fmt2 (bytesToStr mids) r.mult_lookup
      pure { r with formats := insertAssoc r.formats ftype fmt2 }
    | _, _ => none

/-- `DFReader_binary._parse_next` (lines 1481-1593): resync to a recognised
header, slice and unpack the body, transform `a` columns, register `FMT`
records, build the message with multipliers applied on access, and process
the (dead) `FMTU` block.  Recursion (the `return self._parse_next()`
retries) is fuelled; every retry advances `offset` by at least 3, so
`data_len` of fuel is always sufficient.  Live-state bookkeeping
(`_add_msg`) is modelled separately where a claim needs it. -/
def parseNextF : Nat → BinReader → Option DFMessage × BinReader
  | 0, r => (none, r)
  | fuel + 1, r =>
    match skipLoop (r.data_len + 1) r none with
    | (r, none) => (none, r)
    | (r, some msg_type) =>
      let r := { r with offset := r.offset + 3, remaining := r.data_len - (r.offset + 3) }
      match lookupAssoc r.formats msg_type with
      | none => (none, r)
      | some fmt =>
        if r.remaining < fmt.len - 3 then (none, r)
        else
          let body := (r.data_map.drop r.offset).take (fmt.len - 3)
          match unpackSeq fmt.format body with
          | none =>
            if r.remaining < 528 then (none, r) else parseNextF fuel r
          | some elements =>
            let elements := applyATransform fmt elements
            let fmtsRes : Option (List (Nat × DFFormat)) :=
              if fmt.name = "FMT" then fmtRegister r.formats elements
              else some r.formats
            match fmtsRes with
            | none => parseNextF fuel r
            | some formats =>
              let r := { r with formats := formats }
              let r := { r with offset := r.offset + (fmt.len - 3),
                                remaining := r.data_len - (r.offset + (fmt.len - 3)) }
              let m : DFMessage := ⟨fmt, elements, true⟩
              match (if fmt.name = "FMTU" then applyFMTUBlock r elements else some r) with
              | none => (none, r)
              | some r => (some m, r)

/-- A fresh binary reader over a given item stream with a given format
registry (the state `_parse_next` sees right after `_rewind`). -/
def initReader (formats : List (Nat × DFFormat)) (data : List WItem) : BinReader :=
  { data_map := data
    data_len := data.length
    offset := 0
    remaining := data.length
    formats := formats
    unit_lookup := []
    mult_lookup := []
    prev_type := none
    skip_diags := [] }

/-- `decode(encode(R))`: `get_msgbuf` then one `_parse_next` over the
resulting buffer, with `R`'s format registered. -/
def roundTrip (m : DFMessage) : Option DFMessage := do
  let buf ← getMsgbuf m
  let r := initReader [(m.fmt.type, m.fmt)] buf
  match parseNextF (buf.length + 1) r with
  | (some dec, _) => pure dec
  | (none, _) => none

/-! ### Clock subsystem (`DFReaderClock`, `DFReaderClock_usec`) -/

/-- `DFReaderClock._gpsTimeToTime` (lines 452-455): GPS week + time of week
in milliseconds to Unix seconds.  `(1980-1969)/4` is Python float division
truncated by `int()`, i.e. 2. -/
def gpsTimeToTime (week msec : ℚ) : ℚ :=
  let epoch : Int := 86400 * (10 * 365 + (1980 - 1969) / 4 + 1 + 6 - 2)
  (epoch : ℚ) + 86400 * 7 * week + msec * (1/1000) - 18

/-- State of `DFReaderClock_usec` (lines 445-471). -/
structure UsecClock where
  timebase : ℚ
  timestamp : ℚ
  first_us_stamp : Option ℚ
  deriving DecidableEq, Repr

/-- The freshly constructed microsecond clock. -/
def usecClockInit : UsecClock := { timebase := 0, timestamp := 0, first_us_stamp := none }

/-- `DFReaderClock_usec.find_time_base` (lines 473-478). -/
def usec_find_time_base (clk : UsecClock) (gwk gms timeUS : ℚ)
    (first_us_stamp : Option ℚ) : UsecClock :=
  { clk with
      timebase := gpsTimeToTime gwk gms - timeUS * (1/1000000)
      first_us_stamp := first_us_stamp }

/-- The fields of a message that the microsecond clock inspects: its type
name, its field-name list and its `TimeUS`/`TimeMS` values. -/
structure ClockMsg where
  typename : String
  fieldnames : List String
  timeUS : ℚ
  timeMS : ℚ
  deriving DecidableEq, Repr

/-- `DFReaderClock_usec.type_has_good_TimeMS` (lines 486-492). -/
def type_has_good_TimeMS (t : String) : Bool :=
  if t.startsWith "ACC" then false
  else if t.startsWith "GYR" then false
  else true

/-- `DFReaderClock_usec.should_use_msec_field0` (lines 494-501). -/
def should_use_msec_field0 (clk : UsecClock) (m : ClockMsg) : Bool :=
  if ¬ type_has_good_TimeMS m.typename then false
  else if ¬ m.fieldnames.head? = some "TimeMS" then false
  else if clk.timebase + m.timeMS * (1/1000) < clk.timestamp then false
  else true

/-- `DFReaderClock_usec.set_message_timestamp` (lines 503-513): returns the
stamp written to `m._timestamp` and the updated clock. -/
def usec_set_message_timestamp (clk : UsecClock) (m : ClockMsg) : ℚ × UsecClock :=
  let stamp :=
    if m.fieldnames.head? = some "TimeUS" then clk.timebase + m.timeUS * (1/1000000)
    else if should_use_msec_field0 clk m then clk.timebase + m.timeMS * (1/1000)
    else clk.timestamp
  (stamp, { clk with timestamp := stamp })

/-! ### Flight-mode list (`DFReader.flightmode_list`, `_add_msg`) -/

/-- One message seen by the `flightmode_list` scan (which asks for types
`MODE` and `PARM`, strict): a `MODE` record carrying its mode string, or a
`PARM` record, each with the timestamp the clock assigned. -/
inductive FMEvent where
  | mode (s : String) (ts : ℚ)
  | parm (ts : ℚ)
  deriving DecidableEq, Repr

/-- The loop state of `flightmode_list` (lines 1063-1083) plus the reader's
`self.flightmode` that `_add_msg` maintains. -/
structure FMScanState where
  flightmodes : List (String × ℚ × Option ℚ)
  fmode : Option String
  flightmode : String
  tstamp : Option ℚ
  deriving DecidableEq, Repr

/-- The body of one `flightmode_list` scan iteration, given the flight
mode after `_add_msg` and the message's timestamp: lines 1076-1083 collapse
repeats and close the previous triple at the change timestamp. -/
def fmStepCore (st : FMScanState) (fm : String) (ts : ℚ) : FMScanState :=
  let st := { st with flightmode := fm, tstamp := some ts }
  if some fm = st.fmode then st
  else
    let fms :=
      match st.flightmodes.getLast? with
      | some (mo, t0, _) => st.flightmodes.dropLast ++ [(mo, t0, some ts)]
      | none => st.flightmodes
    { st with flightmodes := fms ++ [(fm, ts, none)], fmode := some fm }

/-- One iteration of the `flightmode_list` scan: `_add_msg` updates
`self.flightmode` (`m.Mode.upper()` for a string-mode `MODE` record,
lines 1011-1013), the message gets its stamp, and the loop body collapses
and appends. -/
def fmStep (st : FMScanState) (ev : FMEvent) : FMScanState :=
  match ev with
  | .mode s t => fmStepCore st s.toUpper t
  | .parm t => fmStepCore st st.flightmode t

/-- The scan over all matched messages, from the post-`_rewind` state
(`self.flightmode = "UNKNOWN"`, empty accumulator). -/
def fmScan (evs : List FMEvent) : FMScanState :=
  evs.foldl fmStep { flightmodes := [], fmode := none, flightmode := "UNKNOWN", tstamp := none }

/-- The computation of `self._flightmodes` (lines 1067-1086): scan, then if
any message was seen close the final triple at `self.last_timestamp()`. -/
def flightmode_list_compute (evs : List FMEvent) (lastT : ℚ) :
    List (String × ℚ × Option ℚ) :=
  let st := fmScan evs
  match st.tstamp with
  | none => st.flightmodes
  | some _ =>
    match st.flightmodes.getLast? with
    | some (mo, t0, _) => st.flightmodes.dropLast ++ [(mo, t0, some lastT)]
    | none => st.flightmodes

/-- The part of the reader state `flightmode_list` touches: the memoized
`self._flightmodes` and the cursor offset (0 after `self._rewind()`). -/
structure FMReader where
  flightmodes : Option (List (String × ℚ × Option ℚ))
  offset : Nat
  deriving DecidableEq, Repr

/-- `DFReader.flightmode_list` (lines 1063-1089): compute and memoize on
first call, serve the memo afterwards, and leave the cursor rewound. -/
def flightmode_list (r : FMReader) (evs : List FMEvent) (lastT : ℚ) :
    List (String × ℚ × Option ℚ) × FMReader :=
  let (fms, r) :=
    match r.flightmodes with
    | some l => (l, r)
    | none =>
      let l := flightmode_list_compute evs lastT
      (l, { r with flightmodes := some l })
  (fms, { r with offset := 0 })

/-! ### Text-log detection (`DFReader_is_text_log`) -/

/-- Python `str.find`: index of the first occurrence of `needle`. -/
def strFind (needle : List Char) : List Char → Option Nat
  | [] => if needle = [] then some 0 else none
  | h :: t =>
    if needle.isPrefixOf (h :: t) then some 0
    else (strFind needle t).map (· + 1)

/-- `DFReader_is_text_log` (lines 1628-1633): read the first 8000
characters and test whether `"FMT,"` occurs. -/
def DFReader_is_text_log (content : String) : Bool :=
  (strFind "FMT,".toList (content.toList.take 8000)).isSome

/-! ### `skip_to_type` for both readers -/

/-- The always-tracked message types added to a non-strict type set
(lines 1456 and 1731). -/
def keyTypes : List String := ["MODE", "MSG", "PARM", "STAT", "ORGN", "VER"]

/-- Python `set.copy()` + `set.update(...)`: union, modelled on lists by
appending unseen elements. -/
def pySetUpdate (s extras : List String) : List String :=
  extras.foldl (fun l e => if l.contains e then l else l ++ [e]) s

/-- The per-log environment `DFReader_binary.skip_to_type` consults. -/
structure BinSkipEnv where
  name_to_id : List (String × Nat)
  counts : Nat → Nat
  offsets : Nat → List Nat
  data_len : Nat

/-- The mutable state of `DFReader_binary.skip_to_type`. -/
structure BinSkipState where
  type_nums : Option (List Nat)
  indexes : List Nat
  offset : Nat
  deriving DecidableEq, Repr

/-- `DFReader_binary.skip_to_type` (lines 1449-1479): on the first call
store the (possibly augmented) type set as numeric ids of the names the log
defines; then move the cursor to the smallest un-consumed offset of a
stored type, or to end of data when none remains. -/
def binSkipToType (env : BinSkipEnv) (s : BinSkipState) (ty : List String)
    (strict : Bool) : BinSkipState :=
  let s :=
    match s.type_nums with
    | some _ => s
    | none =>
      let ty := if strict then ty else pySetUpdate ty keyTypes
      let tn := ty.filterMap (fun t => lookupAssoc env.name_to_id t)
      { s with type_nums := some tn, indexes := tn.map (fun _ => 0) }
  let tn := s.type_nums.getD []
  let sel := (List.range tn.length).foldl
    (fun (acc : Int × Nat) i =>
      match tn.get? i, s.indexes.get? i with
      | some mtype, some idx =>
        if env.counts mtype ≤ idx then acc
        else
          match (env.offsets mtype).get? idx with
          | some ofs => if ofs < acc.2 then (i, ofs) else acc
          | none => acc
      | _, _ => acc)
    (-1, env.data_len)
  if 0 ≤ sel.1 then
    { s with indexes := s.indexes.set sel.1.toNat (s.indexes.getD sel.1.toNat 0 + 1),
             offset := sel.2 }
  else
    { s with offset := env.data_len }

/-- The `skip_to_type`-relevant effect of `DFReader_binary._rewind`
(lines 1137-1143): cursor to 0, stored type set cleared (`indexes` is left
stale; it is rebuilt on the next first call). -/
def binRewind (s : BinSkipState) : BinSkipState :=
  { s with type_nums := none, offset := 0 }

/-- The per-log environment `DFReader_text.skip_to_type` consults. -/
structure TextSkipEnv where
  counts : List (String × Nat)
  offsets : String → List Nat
  data_len : Nat

/-- The mutable state of `DFReader_text.skip_to_type`. -/
structure TextSkipState where
  type_list : Option (List String)
  indexes : List Nat
  offset : Nat
  deriving DecidableEq, Repr

/-- `DFReader_text.skip_to_type` (lines 1724-1751): on the first call store
the (possibly augmented) type set by name; then move the cursor to the
smallest un-consumed offset of a stored type present in the log (and leave
the cursor alone when none remains). -/
def textSkipToType (env : TextSkipEnv) (s : TextSkipState) (ty : List String)
    (strict : Bool) : TextSkipState :=
  let s :=
    match s.type_list with
    | some _ => s
    | none =>
      let tl := if strict then ty else pySetUpdate ty keyTypes
      { s with type_list := some tl, indexes := tl.map (fun _ => 0) }
  let tl := s.type_list.getD []
  let sel := (List.range tl.length).foldl
    (fun (acc : Int × Nat) i =>
      match tl.get? i, s.indexes.get? i with
      | some mtype, some idx =>
        match lookupAssoc env.counts mtype with
        | none => acc
        | some cnt =>
          if cnt ≤ idx then acc
          else
            match (env.offsets mtype).get? idx with
            | some ofs => if ofs < acc.2 then (i, ofs) else acc
            | none => acc
      | _, _ => acc)
    (-1, env.data_len)
  if 0 ≤ sel.1 then
    { s with indexes := s.indexes.set sel.1.toNat (s.indexes.getD sel.1.toNat 0 + 1),
             offset := sel.2 }
  else s

/-- The `skip_to_type`-relevant effect of `DFReader_text._rewind`
(lines 1667-1676): stored type list cleared, cursor back to the first
`FMT` line (passed in as `fmtOfs`). -/
def textRewind (s : TextSkipState) (fmtOfs : Nat) : TextSkipState :=
  { s with type_list := none, offset := fmtOfs }

/-! ### Text parser (`DFReader_text._parse_next`) -/

/-- Python `str.rstrip()`. -/
def pyRstrip (s : String) : String :=
  String.mk (s.toList.reverse.dropWhile Char.isWhitespace).reverse

/-- The state of `DFReader_text` that `_parse_next` reads and writes, with
the input as a list of lines (the source walks `data_map` newline by
newline). -/
structure TextReader where
  lines : List String
  delimiter : String
  formats : List (String × DFFormat)
  id_to_name : List (Nat × String)
  name_to_id : List (String × Nat)
  unit_lookup : List (Char × String)
  mult_lookup : List (Char × ℚ)
  deriving Repr

/-- The `FMT`-line registration of `DFReader_text._parse_next`
(lines 1794-1813), including the no-space-delimiter re-join and the
missing-`Columns` compatibility substitution; `none` models the uncaught
`int()`/format exceptions. -/
def textFmtRegister (r : TextReader) (elements : List String) : Option TextReader := do
  let e0 ← elements.get? 0
  let ftypeI ← parsePyInt (strBytes e0)
  let ftype := ftypeI.toNat
  let fname ← elements.get? 2
  let elements :=
    if r.delimiter = "," then
      elements.take 4 ++ [String.intercalate "," (elements.drop 4)]
    else elements
  let columns ← elements.get? 4
  let columns :=
    if fname = "FMT" ∧ columns = "Type,Length,Name,Format" then
      "Type,Length,Name,Format,Columns"
    else columns
  let e1 ← elements.get? 1
  let flenI ← parsePyInt (strBytes e1)
  let e3 ← elements.get? 3
  let new_fmt ← mkDFFormat ftype (strBytes fname) flenI.toNat e3 columns
    (lookupAssoc r.formats fname)
  pure { r with
    formats := insertAssoc r.formats fname new_fmt
    id_to_name := insertAssoc r.id_to_name ftype fname
    name_to_id := insertAssoc r.name_to_id fname ftype }

/-- The `FMTU`/`UNIT`/`MULT` side effects of `DFReader_text._parse_next`
(lines 1820-1841), driven by `__getattr__` on the fresh message; `none`
models the uncaught exceptions (`chr(None)`, formatting `None`). -/
def textSpecialBlocks (r : TextReader) (m : DFMessage) : Option TextReader := do
  let r ←
    if m.fmt.name = "FMTU" then
      match getField m "FmtType" with
      | some (.i fmtid) =>
        (match lookupAssoc r.id_to_name fmtid.toNat with
         | none => some r
         | some nm => do
           let fmtu ← lookupAssoc r.formats nm
           let uids : Option String :=
             match getField m "UnitIds" with
             | some (.s bs) => some (bytesToStr bs)
             | _ => none
           let fmtu ← set_unit_ids fmtu uids r.unit_lookup
           let fmtu ←
             match getField m "MultIds" with
             | some (.s bs) => set_mult_ids fmtu (bytesToStr bs) r.mult_lookup
             | _ => none
           pure { r with formats := insertAssoc r.formats nm fmtu })
      | _ => some r
    else pure r
  let r ←
    if m.fmt.name = "UNIT" then
      match getField m "Id", getField m "Label" with
      | some (.i unitid), some (.s lbl) =>
        some { r with unit_lookup := unitLookupAdd r.unit_lookup unitid.toNat lbl }
      | _, _ => none
    else pure r
  if m.fmt.name = "MULT" then
    match getField m "Id", getField m "Mult" with
    | some (.i multid), some (.q mult) =>
      some { r with mult_lookup := multLookupAdd r.mult_lookup multid.toNat mult }
    | _, _ => none
  else pure r

/-- `DFReader_text._parse_next` (lines 1753-1845): skip lines with fewer
than two fields, synthesize the empty trailing column of a 5-field line
ending in a comma, skip unknown types and under-filled lines, register
`FMT` lines, and build the message **without** multiplier application.
Retries are fuelled; `(none, r)` models both end of input and an uncaught
exception. -/
def textParseNext : Nat → TextReader → Option DFMessage × TextReader
  | 0, r => (none, r)
  | fuel + 1, r =>
    match r.lines with
    | [] => (none, r)
    | line :: rest =>
      let r := { r with lines := rest }
      let elements := pySplit (pyRstrip line) r.delimiter
      if elements.length < 2 then textParseNext fuel r
      else
        let elements :=
          if elements.length = 5 ∧ elements.getLast? = some "," then
            elements.dropLast ++ ["", ""]
          else elements
        let msg_type := elements.headD ""
        match lookupAssoc r.formats msg_type with
        | none => textParseNext fuel r
        | some fmt =>
          if elements.length < fmt.format.length + 1 then textParseNext fuel r
          else
            let elements := elements.tail
            match (if fmt.name = "FMT" then textFmtRegister r elements else some r) with
            | none => (none, r)
            | some r =>
              let m : DFMessage := ⟨fmt, elements.map (fun s => .s (strBytes s)), false⟩
              match textSpecialBlocks r m with
              | none => (none, r)
              | some r => (some m, r)

/-! ## Theorems -/

/-- C3: `_gpsTimeToTime` returns `315964800 + 604800*w + ms*0.001 - 18` for
every week/millisecond pair; consequently, with a first GPS record
`TimeUS=1000000, GWk=2200, GMS=100000`, `find_time_base` sets the µs
clock's timebase to `gpsTimeToTime 2200 100000 - 1.0`, and an `ATT` message
with `TimeUS=2000000` (first field `TimeUS`) is stamped `timebase + 2.0`. -/
theorem c3_gps_time_and_timebase :
    (∀ w ms : ℚ, gpsTimeToTime w ms = 315964800 + 604800 * w + ms * (1/1000) - 18) ∧
    (∀ (fns : List String) (tms : ℚ),
      (usec_find_time_base usecClockInit 2200 100000 1000000 (some 1000000)).timebase =
        gpsTimeToTime 2200 100000 - 1 ∧
      (usec_set_message_timestamp
          (usec_find_time_base usecClockInit 2200 100000 1000000 (some 1000000))
          ⟨"ATT", "TimeUS" :: fns, 2000000, tms⟩).1 =
        (usec_find_time_base usecClockInit 2200 100000 1000000 (some 1000000)).timebase + 2) := by
  constructor
  · intro w ms
    simp only [gpsTimeToTime,
      show (86400 * (10 * 365 + (1980 - 1969) / 4 + 1 + 6 - 2) : Int) = 315964800 from by decide]
    push_cast
    ring
  · intro fns tms
    refine ⟨by norm_num [usec_find_time_base], ?_⟩
    simp only [usec_set_message_timestamp, usec_find_time_base, usecClockInit]
    norm_num

/-- The `FMTU` decoration of claim C4's scenario: format `T` with columns
`X,Y` and format chars `iI`, unit lookup from a `UNIT` record binding
`'d' (100)` to `"deg"`, multiplier lookup from a `MULT` record binding
`'-' (45)` to `0.01`, unit ids `"d#"` and mult ids `"--"`. -/
def c4_fmt_T : Option DFFormat := do
  let f ← mkDFFormat 1 (strBytes "T") 11 "iI" "X,Y" none
  let f ← set_unit_ids f (some "d#") (unitLookupAdd [] 100 (strBytes "deg"))
  set_mult_ids f "--" (multLookupAdd [] 45 (1/100))

/-- The units list produced by claim C4's scenario. -/
def c4_T_units : Option (List String) :=
  match c4_fmt_T with
  | some f => f.units
  | none => none

/-- C4 (counterexample): in the claimed scenario the units come out as
`["cdeg", ""]`, not `["cdeg", "cdeg"]` — column `Y` carries the unit id
`'#'`, which is not in the unit lookup, so its unit is the empty string and
`set_mult_ids` skips it. -/
theorem c4_units_counterexample :
    c4_T_units = some ["cdeg", ""] ∧ ¬ c4_T_units = some ["cdeg", "cdeg"] := by
  constructor
  · with_unfolding_all rfl
  · with_unfolding_all decide

/-- C4 (amended): in the scenario, `T`'s `instance_field` is `"Y"` (the
column at the position of `'#'` in the unit-id string) and its units list
is `["cdeg", ""]`. -/
theorem c4_unit_binding :
    c4_fmt_T.map (fun f => f.instance_field) = some (some "Y") ∧
    c4_T_units = some ["cdeg", ""] := by
  exact ⟨by with_unfolding_all rfl, by with_unfolding_all rfl⟩

/-- C2: under the µs clock, a message whose first field is `TimeUS` is
stamped `timebase + TimeUS*1e-6`; a message whose first field is `TimeMS`
is stamped with the msec formula exactly when its type does not start with
`ACC` or `GYR` and the msec stamp is not below the running timestamp, and
otherwise (as for every other message) inherits the running timestamp; the
running timestamp always becomes the stamp just assigned. -/
theorem c2_usec_stamp_rule (clk : UsecClock) (m : ClockMsg) :
    (usec_set_message_timestamp clk m).1 =
      (if m.fieldnames.head? = some "TimeUS" then
        clk.timebase + m.timeUS * (1/1000000)
      else if m.fieldnames.head? = some "TimeMS" ∧
          m.typename.startsWith "ACC" = false ∧ m.typename.startsWith "GYR" = false ∧
          clk.timestamp ≤ clk.timebase + m.timeMS * (1/1000) then
        clk.timebase + m.timeMS * (1/1000)
      else clk.timestamp) ∧
    (usec_set_message_timestamp clk m).2.timestamp = (usec_set_message_timestamp clk m).1 := by
  refine ⟨?_, rfl⟩
  simp only [usec_set_message_timestamp, should_use_msec_field0, type_has_good_TimeMS]
  by_cases hus : m.fieldnames.head? = some "TimeUS"
  · simp [hus]
  · by_cases hms : m.fieldnames.head? = some "TimeMS"
    · by_cases hacc : m.typename.startsWith "ACC"
      · simp [hus, hms, hacc]
      · by_cases hgyr : m.typename.startsWith "GYR"
        · simp [hus, hms, hacc, hgyr]
        · by_cases hlt : clk.timebase + m.timeMS * (1/1000) < clk.timestamp
          · simp [hus, hms, hacc, hgyr, hlt, not_le.mpr hlt]
          · simp [hus, hms, hacc, hgyr, hlt, not_lt.mp hlt]
    · simp [hus, hms]

/-- C6 (counterexample): the µs clock stamps a `TimeUS`-first message with
`timebase + TimeUS*1e-6` unconditionally, so a successive pair with a
smaller second `TimeUS` gets a strictly smaller second stamp — the claimed
unconditional monotonicity fails. -/
theorem c6_backstep_counterexample :
    (usec_set_message_timestamp
        (usec_set_message_timestamp usecClockInit ⟨"ATT", ["TimeUS"], 2000000, 0⟩).2
        ⟨"ATT", ["TimeUS"], 1000000, 0⟩).1 <
    (usec_set_message_timestamp usecClockInit ⟨"ATT", ["TimeUS"], 2000000, 0⟩).1 := by
  norm_num [usec_set_message_timestamp, usecClockInit, should_use_msec_field0]

/-- C6 (amended): under the µs clock, a message whose first field is not
`TimeUS` never pushes the running timestamp backwards, and for two
successive `TimeUS`-first messages the second stamp is not below the first
provided the second `TimeUS` is not below the first. -/
theorem c6_usec_monotonic (clk : UsecClock) (m1 m2 : ClockMsg) :
    (¬ m2.fieldnames.head? = some "TimeUS" →
      clk.timestamp ≤ (usec_set_message_timestamp clk m2).1) ∧
    (m1.fieldnames.head? = some "TimeUS" → m2.fieldnames.head? = some "TimeUS" →
      m1.timeUS ≤ m2.timeUS →
      (usec_set_message_timestamp clk m1).1 ≤
        (usec_set_message_timestamp (usec_set_message_timestamp clk m1).2 m2).1) := by
  constructor
  · intro h2
    simp only [usec_set_message_timestamp, if_neg h2]
    by_cases hg : should_use_msec_field0 clk m2
    · simp only [hg, if_true]
      simp only [should_use_msec_field0] at hg
      split_ifs at hg with h_a h_b h_c
      simp_all
    · simp [hg]
  · intro h1 h2 hle
    simp only [usec_set_message_timestamp, h1, h2, if_true]
    have : m1.timeUS * (1/1000000) ≤ m2.timeUS * (1/1000000) := by
      apply mul_le_mul_of_nonneg_right hle
      norm_num
    linarith

/-- C6 (witness): the amended monotonicity at concrete inputs. -/
theorem c6_usec_monotonic_witness :
    (usecClockInit.timestamp ≤
      (usec_set_message_timestamp usecClockInit ⟨"BARO", ["TimeMS"], 0, 5000⟩).1) ∧
    ((usec_set_message_timestamp usecClockInit ⟨"ATT", ["TimeUS"], 1000000, 0⟩).1 ≤
      (usec_set_message_timestamp
        (usec_set_message_timestamp usecClockInit ⟨"ATT", ["TimeUS"], 1000000, 0⟩).2
        ⟨"ATT", ["TimeUS"], 3000000, 0⟩).1) :=
  ⟨(c6_usec_monotonic usecClockInit ⟨"ATT", ["TimeUS"], 0, 0⟩
      ⟨"BARO", ["TimeMS"], 0, 5000⟩).1 (by decide),
   (c6_usec_monotonic usecClockInit ⟨"ATT", ["TimeUS"], 1000000, 0⟩
      ⟨"ATT", ["TimeUS"], 3000000, 0⟩).2 (by decide) (by decide) (by norm_num)⟩

/-- `strFind` finds an index exactly when the needle occurs as a
contiguous substring. -/
theorem strFind_isSome_iff (needle hay : List Char) :
    (strFind needle hay).isSome = true ↔ needle <:+: hay := by
  induction hay with
  | nil =>
    simp only [strFind]
    by_cases hn : needle = []
    · simp [hn]
    · simp [hn]
  | cons a t ih =>
    simp only [strFind]
    by_cases hp : needle.isPrefixOf (a :: t)
    · simp only [hp, if_true, Option.isSome_some, true_iff]
      exact (List.isPrefixOf_iff_prefix.mp hp).isInfix
    · simp only [hp, Bool.false_eq_true, if_false, List.infix_cons_iff]
      rw [Option.isSome_map', ih]
      constructor
      · exact Or.inr
      · rintro (h | h)
        · exact absurd (List.isPrefixOf_iff_prefix.mpr h) hp
        · exact h

/-- C8: the text-log detector returns true exactly when the first 8000
characters of the file contain the literal substring `FMT,`. -/
theorem c8_text_log_detect (content : String) :
    DFReader_is_text_log content = true ↔ "FMT,".toList <:+: content.toList.take 8000 := by
  unfold DFReader_is_text_log
  exact strFind_isSome_iff _ _

/-- C9: for both readers, the first `skip_to_type` call after open/rewind
fixes the considered type set — it stores the given set, augmented with
`{MODE, MSG, PARM, STAT, ORGN, VER}` when not strict (the binary reader
stores the numeric ids of the stored names the log defines; the text reader
stores the names themselves); every later call ignores its type-set and
strict arguments and leaves the stored set unchanged; `_rewind` clears the
stored set.  Augmentation is set-union: membership in the stored set is
membership in the given set or, when not strict, in the key-type set. -/
theorem c9_skip_to_type_caching (env : BinSkipEnv) (s : BinSkipState)
    (tenv : TextSkipEnv) (ts : TextSkipState)
    (ty ty2 : List String) (st st2 : Bool) (fmtOfs : Nat) :
    (s.type_nums = none →
      (binSkipToType env s ty st).type_nums =
        some ((if st then ty else pySetUpdate ty keyTypes).filterMap
          (fun t => lookupAssoc env.name_to_id t))) ∧
    (∀ l, s.type_nums = some l →
      binSkipToType env s ty st = binSkipToType env s ty2 st2 ∧
      (binSkipToType env s ty st).type_nums = some l) ∧
    (binRewind s).type_nums = none ∧
    (ts.type_list = none →
      (textSkipToType tenv ts ty st).type_list =
        some (if st then ty else pySetUpdate ty keyTypes)) ∧
    (∀ l, ts.type_list = some l →
      textSkipToType tenv ts ty st = textSkipToType tenv ts ty2 st2 ∧
      (textSkipToType tenv ts ty st).type_list = some l) ∧
    (textRewind ts fmtOfs).type_list = none ∧
    (∀ t, (pySetUpdate ty keyTypes).contains t = (ty.contains t || keyTypes.contains t)) := by
  refine ⟨?_, ?_, rfl, ?_, ?_, rfl, ?_⟩
  · intro h
    simp only [binSkipToType, h]
    split <;> split <;> rfl
  · intro l h
    constructor
    · simp only [binSkipToType, h]
    · simp only [binSkipToType, h]
      split <;> simp [h]
  · intro h
    simp only [textSkipToType, h]
    split <;> split <;> rfl
  · intro l h
    constructor
    · simp only [textSkipToType, h]
    · simp only [textSkipToType, h]
      split <;> simp [h]
  · intro t
    have cim : ∀ (l : List String) (a : String), l.contains a = true ↔ a ∈ l :=
      fun l a => List.elem_iff
    have key : ∀ (es ty : List String), t ∈ pySetUpdate ty es ↔ (t ∈ ty ∨ t ∈ es) := by
      intro es
      induction es with
      | nil => intro ty; simp [pySetUpdate]
      | cons e es ih =>
        intro ty
        show t ∈ pySetUpdate (if ty.contains e = true then ty else ty ++ [e]) es ↔ _
        by_cases he : ty.contains e = true
        · have hem : e ∈ ty := (cim ty e).mp he
          rw [if_pos he, ih]
          simp only [List.mem_cons]
          constructor
          · tauto
          · rintro (h | h | h)
            · tauto
            · subst h; tauto
            · tauto
        · rw [if_neg he, ih]
          simp only [List.mem_append, List.mem_singleton, List.mem_cons]
          tauto
    rw [Bool.eq_iff_iff, Bool.or_eq_true, cim, cim, cim]
    exact key keyTypes ty

/-- A small concrete environment for the C9 witness: one known type. -/
def c9env : BinSkipEnv :=
  { name_to_id := [("MODE", 17)], counts := fun _ => 0, offsets := fun _ => [],
    data_len := 100 }

/-- C9 (witness): at a concrete environment, the first call stores the
given set's ids, and later calls ignore their arguments (both readers). -/
theorem c9_skip_to_type_caching_witness :
    (binSkipToType c9env ⟨none, [], 0⟩ ["GPS"] true).type_nums =
      some ((if true then ["GPS"] else pySetUpdate ["GPS"] keyTypes).filterMap
        (fun t => lookupAssoc c9env.name_to_id t)) ∧
    binSkipToType c9env ⟨some [17], [0], 0⟩ ["GPS"] true =
      binSkipToType c9env ⟨some [17], [0], 0⟩ ["ATT"] false ∧
    textSkipToType ⟨[], fun _ => [], 50⟩ ⟨some ["GPS"], [0], 0⟩ ["GPS"] true =
      textSkipToType ⟨[], fun _ => [], 50⟩ ⟨some ["GPS"], [0], 0⟩ ["ATT"] false :=
  ⟨(c9_skip_to_type_caching c9env ⟨none, [], 0⟩ ⟨[], fun _ => [], 50⟩ ⟨none, [], 0⟩
      ["GPS"] ["ATT"] true false 3).1 rfl,
   ((c9_skip_to_type_caching c9env ⟨some [17], [0], 0⟩ ⟨[], fun _ => [], 50⟩
      ⟨some ["GPS"], [0], 0⟩ ["GPS"] ["ATT"] true false 3).2.1 [17] rfl).1,
   ((c9_skip_to_type_caching c9env ⟨some [17], [0], 0⟩ ⟨[], fun _ => [], 50⟩
      ⟨some ["GPS"], [0], 0⟩ ["GPS"] ["ATT"] true false 3).2.2.2.2.1 ["GPS"] rfl).1⟩

/-- Any resync event the skip loop adds over its starting diagnostics list
records "diagnostic emitted" exactly when at least 528 bytes remained at
the offset where the magic was re-found, provided `remaining` was in sync
with the cursor on entry (the state every `_parse_next` entry establishes). -/
theorem skipLoop_diag_aux (fuel : Nat) :
    ∀ (r : BinReader) (ss : Option Nat),
      r.remaining = r.data_len - r.offset →
      ∀ ev ∈ ((skipLoop fuel r ss).1).skip_diags,
        ev ∈ r.skip_diags ∨ (ev.2.2 = true ↔ 528 ≤ r.data_len - ev.2.1) := by
  induction fuel with
  | zero =>
    intro r ss _ ev hev
    exact Or.inl hev
  | succ n ih =>
    intro r ss hrem ev hev
    have hmem : ∀ (rx : BinReader),
        rx.skip_diags = r.skip_diags ∨
          rx.skip_diags = r.skip_diags ++ [(ss.getD 0, r.offset, decide (528 ≤ r.remaining))] →
        ev ∈ rx.skip_diags →
        ev ∈ r.skip_diags ∨ (ev.2.2 = true ↔ 528 ≤ r.data_len - ev.2.1) := by
      intro rx hds hv
      rcases hds with hds | hds
      · rw [hds] at hv
        exact Or.inl hv
      · rw [hds] at hv
        simp only [List.mem_append, List.mem_singleton] at hv
        rcases hv with hin | hin
        · exact Or.inl hin
        · subst hin
          right
          simp only [decide_eq_true_eq]
          omega
    simp only [skipLoop] at hev
    by_cases hsz : r.data_len - r.offset < 3
    · rw [if_pos hsz] at hev
      exact Or.inl hev
    · rw [if_neg hsz] at hev
      by_cases hm : ((r.data_map.get? r.offset).bind witemByte? = some 0xA3) ∧
          ((r.data_map.get? (r.offset + 1)).bind witemByte? = some 0x95)
      · rw [if_pos hm] at hev
        have hr1d : (skipEmitState r ss).skip_diags = r.skip_diags ∨
            (skipEmitState r ss).skip_diags =
              r.skip_diags ++ [(ss.getD 0, r.offset, decide (528 ≤ r.remaining))] := by
          cases ss with
          | none => exact Or.inl rfl
          | some sstart => exact Or.inr rfl
        have hr1o : (skipEmitState r ss).offset = r.offset := by
          cases ss <;> rfl
        have hr1r : (skipEmitState r ss).remaining = r.remaining := by
          cases ss <;> rfl
        have hr1l : (skipEmitState r ss).data_len = r.data_len := by
          cases ss <;> rfl
        have hr1m : (skipEmitState r ss).data_map = r.data_map := by
          cases ss <;> rfl
        rcases hw2 : ((r.data_map.get? (r.offset + 2)).bind witemByte?) with _ | t <;>
          rw [hw2] at hev
        · rcases ih { skipEmitState r ss with
              offset := (skipEmitState r ss).offset + 1,
              remaining := (skipEmitState r ss).remaining - 1 }
            (skipStartNext none (skipEmitState r ss).offset)
            (by simp only [hr1o, hr1r, hr1l]; omega) ev hev with hin | hiff
          · exact hmem _ hr1d hin
          · right
            simpa only [hr1l] using hiff
        · have hev2 : ev ∈
              ((if (lookupAssoc (skipEmitState r ss).formats t).isSome = true then
                  (({ skipEmitState r ss with prev_type := some t } : BinReader), some t)
                else
                  skipLoop n { skipEmitState r ss with
                      offset := (skipEmitState r ss).offset + 1,
                      remaining := (skipEmitState r ss).remaining - 1 }
                    (skipStartNext none (skipEmitState r ss).offset)).1).skip_diags := hev
          by_cases hl : (lookupAssoc (skipEmitState r ss).formats t).isSome = true
          · rw [if_pos hl] at hev2
            exact hmem _ hr1d hev2
          · rw [if_neg hl] at hev2
            rcases ih { skipEmitState r ss with
                offset := (skipEmitState r ss).offset + 1,
                remaining := (skipEmitState r ss).remaining - 1 }
              (skipStartNext none (skipEmitState r ss).offset)
              (by simp only [hr1o, hr1r, hr1l]; omega) ev hev2 with hin | hiff
            · exact hmem _ hr1d hin
            · right
              simpa only [hr1l] using hiff
      · rw [if_neg hm] at hev
        exact ih { r with offset := r.offset + 1, remaining := r.remaining - 1 }
          (skipStartNext ss r.offset) (by simp only; omega) ev hev

/-- C5 (amended): during byte-wise resync of the binary parser, each
skipped-bytes diagnostic decision, made when the magic is re-found, emits
exactly when at least 528 bytes remain in the file at the re-found offset
— with no special case for files shorter than 528 bytes. -/
theorem c5_resync_diag (fuel : Nat) (r : BinReader)
    (hrem : r.remaining = r.data_len - r.offset) (hdiag : r.skip_diags = []) :
    ∀ ev ∈ ((skipLoop fuel r none).1).skip_diags,
      ev.2.2 = true ↔ 528 ≤ r.data_len - ev.2.1 := by
  intro ev hev
  rcases skipLoop_diag_aux fuel r none hrem ev hev with hin | hiff
  · rw [hdiag] at hin
    exact absurd hin (List.not_mem_nil ev)
  · exact hiff

/-- The format registry of claim C5's concrete run: a single one-byte
format (type 5, record length 4). -/
def c5fmtLit : DFFormat :=
  { type := 5, name := "X", len := 4, format := ['B'], columns := ["V"],
    msg_mults := [none], instance_field := none, instance_ofs := 0,
    instance_len := 0, units := none }

/-- Claim C5's concrete input: five garbage bytes, then a valid record of
type 5 — a 9-byte file, far below 528 bytes. -/
def c5data : List WItem :=
  [.byte 0, .byte 0, .byte 0, .byte 0, .byte 0, .byte 0xA3, .byte 0x95, .byte 5, .byte 42]

/-- C5 (counterexample): in a 9-byte file the parser resyncs after 5
skipped bytes and stays silent (`remaining >= 528` fails), although the
claim's "or the whole file is shorter than 528 bytes" clause says the
diagnostic should be emitted. -/
theorem c5_short_file_counterexample :
    mkDFFormat 5 (strBytes "X") 4 "B" "V" none = some c5fmtLit ∧
    (parseNextF 10 (initReader [(5, c5fmtLit)] c5data)).2.skip_diags = [(0, 5, false)] ∧
    c5data.length < 528 := by
  refine ⟨by with_unfolding_all rfl, by with_unfolding_all rfl, by decide⟩

/-- C5 (witness): the amended rule applied to the concrete 9-byte run:
its single resync event at offset 5 has `emitted = false`, matching
`528 ≤ 9 - 5` being false. -/
theorem c5_resync_diag_witness :
    (false = true) ↔ 528 ≤ c5data.length - 5 :=
  c5_resync_diag 10 (initReader [(5, c5fmtLit)] c5data) rfl rfl (0, 5, false)
    (by with_unfolding_all decide)

/-- Patching the final element of a chain preserves it, as long as edges
into the old final element survive. -/
theorem chain'_patch {α : Type} (R : α → α → Prop) (l : List α) (y y' : α)
    (h : List.Chain' R (l ++ [y])) (hkeep : ∀ x, R x y → R x y') :
    List.Chain' R (l ++ [y']) := by
  rcases List.chain'_append.mp h with ⟨h1, _, h3⟩
  exact List.chain'_append.mpr ⟨h1, List.chain'_singleton y', by
    intro x hx z hz
    simp only [List.head?_cons, Option.mem_def, Option.some.injEq] at hz
    subst hz
    exact hkeep x (h3 x hx y rfl)⟩

/-- Appending an element reachable from the final element preserves
a chain. -/
theorem chain'_snoc2 {α : Type} (R : α → α → Prop) (l : List α) (y z : α)
    (h : List.Chain' R (l ++ [y])) (hyz : R y z) :
    List.Chain' R ((l ++ [y]) ++ [z]) := by
  refine List.chain'_append.mpr ⟨h, List.chain'_singleton z, ?_⟩
  intro x hx w hw
  simp only [List.getLast?_concat, Option.mem_def, Option.some.injEq] at hx
  simp only [List.head?_cons, Option.mem_def, Option.some.injEq] at hw
  subst hx
  subst hw
  exact hyz

/-- The `flightmode_list` scan invariant: triples chain end-to-start,
consecutive modes differ, `fmode` mirrors the final triple's mode, and the
triple list is empty only before any message was seen. -/
def FMInv (st : FMScanState) : Prop :=
  List.Chain' (fun a b => a.2.2 = some b.2.1) st.flightmodes ∧
  List.Chain' (fun a b => ¬ a.1 = b.1) st.flightmodes ∧
  st.fmode = (st.flightmodes.getLast?).map (fun x => x.1) ∧
  (st.flightmodes = [] → st.tstamp = none)

/-- One scan step body preserves the invariant. -/
theorem fmStepCore_inv (st : FMScanState) (fm : String) (ts : ℚ) (h : FMInv st) :
    FMInv (fmStepCore st fm ts) := by
  obtain ⟨hc, hd, hl, he⟩ := h
  simp only [fmStepCore]
  by_cases heq : some fm = st.fmode
  · rw [if_pos heq]
    refine ⟨hc, hd, hl, ?_⟩
    intro h0
    rw [h0] at hl
    simp only [List.getLast?_nil, Option.map_none'] at hl
    rw [hl] at heq
    exact absurd heq (by simp)
  · rw [if_neg heq]
    rcases hlast : st.flightmodes.getLast? with _ | ⟨mo, t0, x⟩
    · have h0 : st.flightmodes = [] := List.getLast?_eq_none_iff.mp hlast
      refine ⟨?_, ?_, ?_, ?_⟩ <;> simp [h0, List.chain'_singleton]
    · show FMInv
        { flightmodes := (st.flightmodes.dropLast ++ [(mo, t0, some ts)]) ++ [(fm, ts, none)],
          fmode := some fm, flightmode := fm, tstamp := some ts }
      have hsplit : st.flightmodes.dropLast ++ [(mo, t0, x)] = st.flightmodes :=
        List.dropLast_append_getLast? (mo, t0, x) hlast
      have hmo : ¬ (mo : String) = fm := by
        intro hcontra
        apply heq
        rw [hl, hlast]
        simp [hcontra]
      constructor
      · apply chain'_snoc2
        · apply chain'_patch (l := st.flightmodes.dropLast) (y := (mo, t0, x))
          · rw [hsplit]
            exact hc
          · intro z hz
            exact hz
        · rfl
      constructor
      · apply chain'_snoc2
        · apply chain'_patch (l := st.flightmodes.dropLast) (y := (mo, t0, x))
          · rw [hsplit]
            exact hd
          · intro z hz
            exact hz
        · exact hmo
      constructor
      · simp [List.getLast?_concat]
      · intro h0
        exact absurd h0 (by simp)

/-- One scan step preserves the invariant. -/
theorem fmStep_inv (st : FMScanState) (ev : FMEvent) (h : FMInv st) :
    FMInv (fmStep st ev) := by
  cases ev with
  | mode s t => exact fmStepCore_inv st (s.toUpper) t h
  | parm t => exact fmStepCore_inv st st.flightmode t h

/-- The invariant is preserved along any fold of scan steps. -/
theorem foldl_fmStep_inv :
    ∀ (evs : List FMEvent) (st : FMScanState), FMInv st → FMInv (evs.foldl fmStep st) := by
  intro evs
  induction evs with
  | nil => intro st h; exact h
  | cons e es ih =>
    intro st h
    exact ih (fmStep st e) (fmStep_inv st e h)

/-- The scan from the initial state satisfies the invariant. -/
theorem fmScan_inv (evs : List FMEvent) : FMInv (fmScan evs) :=
  foldl_fmStep_inv evs _ ⟨List.chain'_nil, List.chain'_nil, rfl, fun _ => rfl⟩

/-- The timestamp a step records. -/
def evTs : FMEvent → ℚ
  | .mode _ t => t
  | .parm t => t

/-- Every step sets `tstamp`. -/
theorem fmStep_tstamp (st : FMScanState) (ev : FMEvent) :
    (fmStep st ev).tstamp = some (evTs ev) := by
  cases ev <;> (simp only [fmStep, fmStepCore, evTs]; split <;> rfl)

/-- After a non-empty fold the timestamp is set. -/
theorem foldl_fmStep_tstamp_ne :
    ∀ (evs : List FMEvent) (st : FMScanState), evs ≠ [] →
      (evs.foldl fmStep st).tstamp ≠ none := by
  intro evs
  induction evs with
  | nil => intro st h0; exact absurd rfl h0
  | cons e es ih =>
    intro st _
    by_cases hes : es = []
    · subst hes
      simp only [List.foldl_cons, List.foldl_nil, fmStep_tstamp]
      exact Option.some_ne_none _
    · exact ih (fmStep st e) hes

/-- After a non-empty scan the timestamp is set. -/
theorem fmScan_tstamp_ne (evs : List FMEvent) (h : evs ≠ []) :
    (fmScan evs).tstamp ≠ none :=
  foldl_fmStep_tstamp_ne evs _ h

/-- The completed `_flightmodes` list chains end-to-start, collapses
repeated modes, and (when any message was seen) ends at the log's last
timestamp. -/
theorem fm_compute_props (evs : List FMEvent) (lastT : ℚ) :
    List.Chain' (fun a b => a.2.2 = some b.2.1) (flightmode_list_compute evs lastT) ∧
    List.Chain' (fun a b => ¬ a.1 = b.1) (flightmode_list_compute evs lastT) ∧
    (evs ≠ [] →
      ((flightmode_list_compute evs lastT).getLast?).map (fun p => p.2.2) =
        some (some lastT)) := by
  obtain ⟨hc, hd, hl, he⟩ := fmScan_inv evs
  simp only [flightmode_list_compute]
  rcases hts : (fmScan evs).tstamp with _ | t
  · refine ⟨hc, hd, ?_⟩
    intro hne
    exact absurd hts (fmScan_tstamp_ne evs hne)
  · rcases hlast : (fmScan evs).flightmodes.getLast? with _ | ⟨mo, t0, x⟩
    · have h0 : (fmScan evs).flightmodes = [] := List.getLast?_eq_none_iff.mp hlast
      exact absurd (he h0) (by rw [hts]; exact Option.some_ne_none t)
    · have hsplit : (fmScan evs).flightmodes.dropLast ++ [(mo, t0, x)] =
          (fmScan evs).flightmodes :=
        List.dropLast_append_getLast? (mo, t0, x) hlast
      refine ⟨?_, ?_, ?_⟩
      · show List.Chain' (fun a b => a.2.2 = some b.2.1)
          ((fmScan evs).flightmodes.dropLast ++ [(mo, t0, some lastT)])
        apply chain'_patch (l := (fmScan evs).flightmodes.dropLast) (y := (mo, t0, x))
        · rw [hsplit]
          exact hc
        · intro z hz
          exact hz
      · show List.Chain' (fun a b => ¬ a.1 = b.1)
          ((fmScan evs).flightmodes.dropLast ++ [(mo, t0, some lastT)])
        apply chain'_patch (l := (fmScan evs).flightmodes.dropLast) (y := (mo, t0, x))
        · rw [hsplit]
          exact hd
        · intro z hz
          exact hz
      · intro _
        show (((fmScan evs).flightmodes.dropLast ++
            [(mo, t0, some lastT)]).getLast?).map (fun p => p.2.2) = some (some lastT)
        rw [List.getLast?_concat]
        rfl

/-- C7: `flightmode_list` returns an ordered list of `(mode, t0, t1)`
triples in which repeats are collapsed (consecutive modes differ), each
triple's end is the next triple's start, the last triple ends at the log's
last timestamp; the result is memoized (a cached list is returned as is,
whatever the scan would now see) and the cursor is left rewound; on modes
`A,A,B` at stamps 0,10,20 the result is
`[("A",0,20), ("B",20,last)]`. -/
theorem c7_flightmode_list (evs : List FMEvent) (lastT : ℚ) (off : Nat)
    (l : List (String × ℚ × Option ℚ)) (r : FMReader) :
    List.Chain' (fun a b => a.2.2 = some b.2.1) (flightmode_list ⟨none, off⟩ evs lastT).1 ∧
    List.Chain' (fun a b => ¬ a.1 = b.1) (flightmode_list ⟨none, off⟩ evs lastT).1 ∧
    (evs ≠ [] →
      ((flightmode_list ⟨none, off⟩ evs lastT).1.getLast?).map (fun p => p.2.2) =
        some (some lastT)) ∧
    (flightmode_list ⟨none, off⟩ evs lastT).2.flightmodes =
      some (flightmode_list ⟨none, off⟩ evs lastT).1 ∧
    (∀ (evs2 : List FMEvent) (lastT2 : ℚ),
      (flightmode_list ⟨some l, off⟩ evs lastT).1 = l ∧
      flightmode_list ⟨some l, off⟩ evs lastT = flightmode_list ⟨some l, off⟩ evs2 lastT2) ∧
    (flightmode_list r evs lastT).2.offset = 0 ∧
    (flightmode_list ⟨none, off⟩ [.mode "A" 0, .mode "A" 10, .mode "B" 20] lastT).1 =
      [("A", 0, some 20), ("B", 20, some lastT)] := by
  obtain ⟨hc, hd, hlast⟩ := fm_compute_props evs lastT
  refine ⟨hc, hd, hlast, rfl, fun _ _ => ⟨rfl, rfl⟩, ?_, ?_⟩
  · rcases r with ⟨_ | c, ofs⟩ <;> rfl
  · with_unfolding_all rfl

/-- C7 (witness): on the concrete `A,A,B` log the final triple ends at the
given last timestamp. -/
theorem c7_flightmode_list_witness :
    ((flightmode_list ⟨none, 0⟩ [.mode "A" 0, .mode "A" 10, .mode "B" 20] 99).1.getLast?).map
      (fun p => p.2.2) = some (some 99) :=
  (c7_flightmode_list [.mode "A" 0, .mode "A" 10, .mode "B" 20] 99 0 [] ⟨none, 0⟩).2.2.1
    (by simp)

set_option maxHeartbeats 1000000 in
/-- `charMult` in closed form: exactly `c,C,e,E` carry 0.01 and `L`
carries 1e-7. -/
theorem charMult_eq (c : Char) :
    charMult c =
      if c = 'c' then some (1/100) else if c = 'C' then some (1/100)
      else if c = 'e' then some (1/100) else if c = 'E' then some (1/100)
      else if c = 'L' then some (1/10000000) else none := by
  by_cases h1 : c = 'c'
  · subst h1; rfl
  rw [if_neg h1]
  by_cases h2 : c = 'C'
  · subst h2; rfl
  rw [if_neg h2]
  by_cases h3 : c = 'e'
  · subst h3; rfl
  rw [if_neg h3]
  by_cases h4 : c = 'E'
  · subst h4; rfl
  rw [if_neg h4]
  by_cases h5 : c = 'L'
  · subst h5; rfl
  rw [if_neg h5]
  by_cases ha : c = 'a'
  · subst ha; rfl
  by_cases hb : c = 'b'
  · subst hb; rfl
  by_cases hB : c = 'B'
  · subst hB; rfl
  by_cases hg : c = 'g'
  · subst hg; rfl
  by_cases hh : c = 'h'
  · subst hh; rfl
  by_cases hH : c = 'H'
  · subst hH; rfl
  by_cases hi : c = 'i'
  · subst hi; rfl
  by_cases hI : c = 'I'
  · subst hI; rfl
  by_cases hf : c = 'f'
  · subst hf; rfl
  by_cases hn : c = 'n'
  · subst hn; rfl
  by_cases hN : c = 'N'
  · subst hN; rfl
  by_cases hZ : c = 'Z'
  · subst hZ; rfl
  by_cases hd : c = 'd'
  · subst hd; rfl
  by_cases hM : c = 'M'
  · subst hM; rfl
  by_cases hq : c = 'q'
  · subst hq; rfl
  by_cases hQ : c = 'Q'
  · subst hQ; rfl
  delta charMult FORMAT_TO_STRUCT
  rw [if_neg ha, if_neg hb, if_neg hB, if_neg hg, if_neg hh, if_neg hH, if_neg hi,
    if_neg hI, if_neg hf, if_neg hn, if_neg hN, if_neg hZ, if_neg h1, if_neg h2,
    if_neg h3, if_neg h4, if_neg h5, if_neg hd, if_neg hM, if_neg hq, if_neg hQ]
  rfl

/-- The format chars carrying a scalar multiplier (`c,C,e,E,L`) are
float-typed, their multiplier lies in (0,1), and they are none of the
special chars of `__getattr__`. -/
theorem charMult_props (c : Char) (mu : ℚ) (h : charMult c = some mu) :
    msgType c = some .pfloat ∧ (0 < mu ∧ mu < 1) ∧ ¬ c = 'Z' ∧ ¬ c = 'M' ∧ ¬ c = 'a' := by
  rw [charMult_eq] at h
  split_ifs at h <;> simp only [Option.some.injEq] at h <;> subst_vars <;>
    exact ⟨by decide, by norm_num, by decide, by decide, by decide⟩

/-- Every message the binary parser returns was built with multipliers
applied on access (line 1574). -/
theorem parseNextF_applyMult :
    ∀ (fuel : Nat) (r : BinReader) (m : DFMessage) (r' : BinReader),
      parseNextF fuel r = (some m, r') → m.applyMult = true := by
  intro fuel
  induction fuel with
  | zero =>
    intro r m r' h
    simp only [parseNextF] at h
    exact absurd h (by simp)
  | succ n ih =>
    intro r m r' h
    simp only [parseNextF] at h
    repeat' split at h
    all_goals
      first
        | exact ih _ _ _ h
        | (simp only [Prod.mk.injEq, Option.some.injEq] at h;
           obtain ⟨h1, h2⟩ := h; subst h1; rfl)
        | simp at h

/-- Every message the text parser returns was built without multiplier
application (line 1816). -/
theorem textParseNext_applyMult :
    ∀ (fuel : Nat) (r : TextReader) (m : DFMessage) (r' : TextReader),
      textParseNext fuel r = (some m, r') → m.applyMult = false := by
  intro fuel
  induction fuel with
  | zero =>
    intro r m r' h
    simp only [textParseNext] at h
    exact absurd h (by simp)
  | succ n ih =>
    intro r m r' h
    simp only [textParseNext] at h
    repeat' split at h
    all_goals
      first
        | exact ih _ _ _ h
        | (simp only [Prod.mk.injEq, Option.some.injEq] at h;
           obtain ⟨h1, h2⟩ := h; subst h1; rfl)
        | simp at h

/-- Scaled field access: with the multiplier flag set the stored integer
comes back scaled by the char's multiplier (via the division convention);
without it the stored text comes back parsed but unscaled. -/
theorem getField_mult_scaled (fmt : DFFormat) (i : Nat) (c : Char) (mu : ℚ)
    (f : String) (elemsB elemsT : List DFValue) (e : Int) (s : List Nat) (x : ℚ)
    (hci : colIndex fmt.columns f = some i)
    (hfc : fmt.format.get? i = some c)
    (hmm : fmt.msg_mults.get? i = some (some mu))
    (hcm : charMult c = some mu)
    (hB : elemsB.get? i = some (.i e))
    (hT : elemsT.get? i = some (.s s))
    (hx : parsePyFloat s = some x) :
    getField ⟨fmt, elemsB, true⟩ f = some (.q ((e : ℚ) * mu)) ∧
    getField ⟨fmt, elemsT, false⟩ f = some (.q x) := by
  obtain ⟨hty, ⟨hmu0, hmu1⟩, hZ, hM, ha⟩ := charMult_props c mu hcm
  have hif : ¬ (c = 'Z' ∧ fmt.name = "FILE") := fun hcon => hZ hcon.1
  constructor
  · simp only [getField, hci, hB, hfc, hty, hmm, Option.bind_eq_bind, Option.some_bind]
    rw [if_neg hif, if_neg ha, if_pos (Or.inr trivial)]
    simp only [convPy, Option.some_bind]
    rw [if_neg (show ¬ (PyTy.pfloat = PyTy.pstr) from by decide), if_pos trivial]
    simp only [scaleMult]
    rw [if_pos (And.intro hmu0 hmu1)]
    rw [one_div, div_inv_eq_mul]
  · simp only [getField, hci, hT, hfc, hty, hmm, Option.bind_eq_bind, Option.some_bind]
    rw [if_neg hif, if_neg ha, if_pos (Or.inl hM)]
    simp only [convPy, hx, Option.map_some', Option.some_bind]
    rw [if_neg (show ¬ (PyTy.pfloat = PyTy.pstr) from by decide),
      if_neg (show ¬ ((false : Bool) = true) from by decide)]
    rfl

/-- C10: every message produced by the binary parser applies multipliers
on access and every message produced by the text parser does not; hence a
multiplier-carrying field (format chars `c,C,e,E,L`) reads back scaled from
a binary-log message (by the division convention, equal to the product)
and unscaled (parsed text only) from a text-log message. -/
theorem c10_apply_multiplier :
    (∀ (fuel : Nat) (r : BinReader) (m : DFMessage) (r' : BinReader),
      parseNextF fuel r = (some m, r') → m.applyMult = true) ∧
    (∀ (fuel : Nat) (tr : TextReader) (m : DFMessage) (tr' : TextReader),
      textParseNext fuel tr = (some m, tr') → m.applyMult = false) ∧
    (∀ (fmt : DFFormat) (i : Nat) (c : Char) (mu : ℚ) (f : String)
        (elemsB elemsT : List DFValue) (e : Int) (s : List Nat) (x : ℚ),
      colIndex fmt.columns f = some i →
      fmt.format.get? i = some c →
      fmt.msg_mults.get? i = some (some mu) →
      charMult c = some mu →
      elemsB.get? i = some (.i e) →
      elemsT.get? i = some (.s s) →
      parsePyFloat s = some x →
      getField ⟨fmt, elemsB, true⟩ f = some (.q ((e : ℚ) * mu)) ∧
      getField ⟨fmt, elemsT, false⟩ f = some (.q x)) :=
  ⟨parseNextF_applyMult, textParseNext_applyMult,
   fun fmt i c mu f eB eT e s x h1 h2 h3 h4 h5 h6 h7 =>
     getField_mult_scaled fmt i c mu f eB eT e s x h1 h2 h3 h4 h5 h6 h7⟩

/-- A one-column centi-scaled format for the C10 witness. -/
def c10fmt : DFFormat :=
  { type := 9, name := "S", len := 5, format := ['c'], columns := ["V"],
    msg_mults := [some (1/100)], instance_field := none, instance_ofs := 0,
    instance_len := 0, units := none }

/-- A fresh binary reader over one record of the witness format. -/
def c10bin : BinReader :=
  initReader [(9, c10fmt)] [.byte 0xA3, .byte 0x95, .byte 9, .byte 250, .byte 0]

/-- The message the binary witness run decodes. -/
def c10msgB : DFMessage := ⟨c10fmt, [.i 250], true⟩

/-- A text reader over one line of the witness format. -/
def c10txt : TextReader :=
  { lines := ["S, 2.5"], delimiter := ", ", formats := [("S", c10fmt)],
    id_to_name := [(9, "S")], name_to_id := [("S", 9)], unit_lookup := [],
    mult_lookup := [] }

/-- The message the text witness run produces. -/
def c10msgT : DFMessage := ⟨c10fmt, [.s (strBytes "2.5")], false⟩

/-- C10 (witness): the concrete binary run yields a multiplier-applying
message whose scaled field reads 2.5, and the concrete text run yields a
non-applying message whose field reads back the parsed 2.5 unscaled. -/
theorem c10_apply_multiplier_witness :
    c10msgB.applyMult = true ∧
    c10msgT.applyMult = false ∧
    getField ⟨c10fmt, [.i 250], true⟩ "V" = some (.q ((250 : ℚ) * (1/100))) ∧
    getField ⟨c10fmt, [.s (strBytes "2.5")], false⟩ "V" = some (.q (5/2)) :=
  ⟨c10_apply_multiplier.1 10 c10bin c10msgB (parseNextF 10 c10bin).2
     (by with_unfolding_all rfl),
   c10_apply_multiplier.2.1 2 c10txt c10msgT (textParseNext 2 c10txt).2
     (by with_unfolding_all rfl),
   (c10_apply_multiplier.2.2 c10fmt 0 'c' (1/100) "V" [.i 250] [.s (strBytes "2.5")]
     250 (strBytes "2.5") (5/2) (by with_unfolding_all rfl) rfl rfl rfl rfl rfl
     (by with_unfolding_all rfl)).1,
   (c10_apply_multiplier.2.2 c10fmt 0 'c' (1/100) "V" [.i 250] [.s (strBytes "2.5")]
     250 (strBytes "2.5") (5/2) (by with_unfolding_all rfl) rfl rfl rfl rfl rfl
     (by with_unfolding_all rfl)).2⟩

/-! ### Round trip (`get_msgbuf` then `_parse_next`) -/

/-- The format characters `FORMAT_TO_STRUCT` supports, in table order. -/
def FMTCHARS : List Char :=
  ['a', 'b', 'B', 'g', 'h', 'H', 'i', 'I', 'f', 'n', 'N', 'Z',
   'c', 'C', 'e', 'E', 'L', 'd', 'M', 'q', 'Q']

/-- Well-formedness of one element against its format char: integers in the
range `struct.pack` accepts, strings not truncated by the field width, and
`a` columns holding exactly 32 in-range int16s. -/
def elemWF (c : Char) (v : DFValue) : Bool :=
  if c = 'a' then
    match v with
    | .arr xs =>
      decide (xs.length = 32) && xs.all (fun x => decide (-32768 ≤ x ∧ x < 32768))
    | _ => false
  else
    match charSType c, v with
    | some (.sint k), .i e =>
      decide (-((2 : Int) ^ (8 * k - 1)) ≤ e ∧ e < (2 : Int) ^ (8 * k - 1))
    | some (.uint k), .i e => decide (0 ≤ e ∧ e < (2 : Int) ^ (8 * k))
    | some (.flt _), .q _ => true
    | some (.strT k), .s bs => decide ((nullTerm bs).length ≤ k)
    | _, _ => false

/-- The internal coherence of the table that the round trip relies on:
integer slots are `int`-typed exactly when they carry no multiplier, every
multiplier lies in `(0,1)`, floats and strings carry none, and every slot is
at least one byte wide. -/
def tableFact (c : Char) : Bool :=
  match charSType c with
  | some (.sint k) =>
    decide (1 ≤ k) &&
      (match charMult c with
       | none => msgType c == some .pint
       | some mu => (msgType c == some .pfloat) && decide (0 < mu ∧ mu < 1))
  | some (.uint k) =>
    decide (1 ≤ k) &&
      (match charMult c with
       | none => msgType c == some .pint
       | some mu => (msgType c == some .pfloat) && decide (0 < mu ∧ mu < 1))
  | some (.flt k) => decide (1 ≤ k) && (msgType c == some .pfloat) && (charMult c).isNone
  | some (.strT _) => ((msgType c == some .pstr) || (c == 'a')) && (charMult c).isNone
  | none => true

/-- The value `get_msgbuf` packs for an element (strings are null-terminated
by `__getattr__` on the way, arrays serialised to their bytes; integers are
recovered exactly by the divide-and-round step). -/
def encSlot (v : DFValue) : DFValue :=
  match v with
  | .arr xs => .s (arrBytes xs)
  | .s bs => .s (nullTerm bs)
  | w => w

/-- The wire items one packed slot occupies. -/
def slotW (c : Char) (v : DFValue) : List WItem :=
  match charSType c, v with
  | some (.sint k), .i e => (natToLE k ((e % ((2 : Int) ^ (8 * k))).toNat)).map .byte
  | some (.uint k), .i e => (natToLE k e.toNat).map .byte
  | some (.flt k), .q x => fblock x k
  | some (.strT k), .s bs =>
    (nullTerm bs ++ List.replicate (k - (nullTerm bs).length) 0).map .byte
  | some (.strT _), .arr xs => (arrBytes xs).map .byte
  | _, _ => []

/-- The element `struct.unpack` recovers from one packed slot, before the
`a`-column transform. -/
def rawDec (c : Char) (v : DFValue) : DFValue :=
  match charSType c, v with
  | some (.strT k), .s bs => .s (nullTerm bs ++ List.replicate (k - (nullTerm bs).length) 0)
  | some (.strT _), .arr xs => .s (arrBytes xs)
  | _, v => v

/-- The element of the decoded message, after the `a`-column transform. -/
def decSlot (c : Char) (v : DFValue) : DFValue :=
  if c = 'a' then v
  else
    match charSType c, v with
    | some (.strT k), .s bs => .s (nullTerm bs ++ List.replicate (k - (nullTerm bs).length) 0)
    | _, v => v

/-- What `__getattr__` yields for an element (with multipliers applied). -/
def gfVal (c : Char) (v : DFValue) : DFValue :=
  match charMult c, v with
  | some mu, .i e => .q (if 0 < mu ∧ mu < 1 then (e : ℚ) / (1 / mu) else (e : ℚ) * mu)
  | _, .s bs => .s (nullTerm bs)
  | _, v => v

/-- The value `get_msgbuf` packs at index `i` of a message. -/
def encAt (m : DFMessage) (i : Nat) : DFValue :=
  match m.elements.get? i with
  | some v => encSlot v
  | none => .i 0

/-- The well-formedness of a message under which the round trip is exact:
multipliers applied on access, a packable type id, none of the schema names
(nor `FILE`, whose raw `Z` column keeps the pad bytes), distinct columns not
containing both `Mode` and `ModeNum` (`get_msgbuf` substitutes one for the
other), coherent lengths, the multiplier list that `DFFormat.__init__`
builds, the length field the wire size implies, and in-range elements. -/
def WFMessage (m : DFMessage) : Prop :=
  m.applyMult = true ∧
  m.fmt.type ≤ 255 ∧
  m.fmt.name ∉ (["FMT", "FMTU", "UNIT", "MULT", "FILE"] : List String) ∧
  m.fmt.columns.Nodup ∧
  ¬ ("Mode" ∈ m.fmt.columns ∧ "ModeNum" ∈ m.fmt.columns) ∧
  m.fmt.format.length = m.fmt.columns.length ∧
  m.elements.length = m.fmt.format.length ∧
  m.fmt.msg_mults = m.fmt.format.map charMult ∧
  3 ≤ m.fmt.len ∧
  wireSize m.fmt.format = some (m.fmt.len - 3) ∧
  ∀ p ∈ m.fmt.format.zip m.elements, elemWF p.1 p.2 = true

instance (m : DFMessage) : Decidable (WFMessage m) := by
  unfold WFMessage; infer_instance

/-- A supported format char is one of the 21 table characters. -/
theorem FORMAT_mem (c : Char) (h : (FORMAT_TO_STRUCT c).isSome = true) :
    c ∈ FMTCHARS := by
  by_contra hmem
  simp only [FMTCHARS, List.mem_cons, List.not_mem_nil, or_false, not_or] at hmem
  obtain ⟨ha, hb, hB, hg, hh, hH, hi, hI, hf, hn, hN, hZ, hc, hC, he, hE, hL, hd, hM, hq, hQ⟩ :=
    hmem
  unfold FORMAT_TO_STRUCT at h
  rw [if_neg ha, if_neg hb, if_neg hB, if_neg hg, if_neg hh, if_neg hH, if_neg hi, if_neg hI,
    if_neg hf, if_neg hn, if_neg hN, if_neg hZ, if_neg hc, if_neg hC, if_neg he, if_neg hE,
    if_neg hL, if_neg hd, if_neg hM, if_neg hq, if_neg hQ] at h
  simp at h

/-- The table coherence facts hold for every supported char. -/
theorem tableFact_all : ∀ c ∈ FMTCHARS, tableFact c = true := by
  with_unfolding_all decide

/-- Coherence facts, keyed on the struct type being known. -/
theorem tableFact_of_sType (c : Char) (st : SType) (h : charSType c = some st) :
    tableFact c = true := by
  refine tableFact_all c (FORMAT_mem c ?_)
  unfold charSType at h
  cases hF : FORMAT_TO_STRUCT c
  · rw [hF] at h; simp at h
  · simp [hF]

/-- Facts about a signed-integer format char. -/
theorem sint_facts (c : Char) (k : Nat) (hst : charSType c = some (.sint k)) :
    1 ≤ k ∧ ((charMult c = none ∧ msgType c = some .pint) ∨
      (∃ mu, charMult c = some mu ∧ msgType c = some .pfloat ∧ 0 < mu ∧ mu < 1)) := by
  have ht := tableFact_of_sType c _ hst
  unfold tableFact at ht
  rw [hst] at ht
  rcases hcm : charMult c with _ | mu <;> rw [hcm] at ht <;>
    simp only [Bool.and_eq_true, decide_eq_true_eq, beq_iff_eq] at ht
  · exact ⟨ht.1, Or.inl ⟨rfl, ht.2⟩⟩
  · exact ⟨ht.1, Or.inr ⟨mu, rfl, ht.2.1, ht.2.2⟩⟩

/-- Facts about an unsigned-integer format char. -/
theorem uint_facts (c : Char) (k : Nat) (hst : charSType c = some (.uint k)) :
    1 ≤ k ∧ ((charMult c = none ∧ msgType c = some .pint) ∨
      (∃ mu, charMult c = some mu ∧ msgType c = some .pfloat ∧ 0 < mu ∧ mu < 1)) := by
  have ht := tableFact_of_sType c _ hst
  unfold tableFact at ht
  rw [hst] at ht
  rcases hcm : charMult c with _ | mu <;> rw [hcm] at ht <;>
    simp only [Bool.and_eq_true, decide_eq_true_eq, beq_iff_eq] at ht
  · exact ⟨ht.1, Or.inl ⟨rfl, ht.2⟩⟩
  · exact ⟨ht.1, Or.inr ⟨mu, rfl, ht.2.1, ht.2.2⟩⟩

/-- Facts about a float format char. -/
theorem flt_facts (c : Char) (k : Nat) (hst : charSType c = some (.flt k)) :
    1 ≤ k ∧ msgType c = some .pfloat ∧ charMult c = none := by
  have ht := tableFact_of_sType c _ hst
  unfold tableFact at ht
  rw [hst] at ht
  simp only [Bool.and_eq_true, decide_eq_true_eq, beq_iff_eq, Option.isNone_iff_eq_none] at ht
  exact ⟨ht.1.1, ht.1.2, ht.2⟩

/-- Facts about a string format char. -/
theorem strT_facts (c : Char) (k : Nat) (hst : charSType c = some (.strT k)) :
    (msgType c = some .pstr ∨ c = 'a') ∧ charMult c = none := by
  have ht := tableFact_of_sType c _ hst
  unfold tableFact at ht
  rw [hst] at ht
  simp only [Bool.and_eq_true, Bool.or_eq_true, beq_iff_eq, Option.isNone_iff_eq_none] at ht
  exact ht

/-- A well-formed element determines a struct type for its char. -/
theorem elemWF_sType (c : Char) (v : DFValue) (h : elemWF c v = true) :
    ∃ st, charSType c = some st := by
  by_cases hca : c = 'a'
  · exact ⟨.strT 64, by rw [hca]; rfl⟩
  · unfold elemWF at h
    rw [if_neg hca] at h
    rcases hst : charSType c with _ | st
    · rw [hst] at h; cases v <;> simp at h
    · exact ⟨st, rfl⟩

/-- `natToLE` produces exactly `k` bytes. -/
theorem natToLE_length : ∀ (k n : Nat), (natToLE k n).length = k
  | 0, _ => rfl
  | k + 1, n => by simp [natToLE, natToLE_length k]

/-- `leToNat` inverts `natToLE` modulo `256 ^ k`. -/
theorem leToNat_natToLE : ∀ (k n : Nat), leToNat (natToLE k n) = n % 256 ^ k
  | 0, n => by simp [natToLE, leToNat, Nat.mod_one]
  | k + 1, n => by
    show n % 256 + 256 * leToNat (natToLE k (n / 256)) = n % 256 ^ (k + 1)
    rw [leToNat_natToLE k, pow_succ, mul_comm (256 ^ k) 256, Nat.mod_mul]

/-- `256 ^ k` as a power of two. -/
theorem pow256 (k : Nat) : (256 : Nat) ^ k = 2 ^ (8 * k) := by
  rw [show (256 : Nat) = 2 ^ 8 from rfl, ← pow_mul]

/-- `takeBytes` splits off a leading run of genuine bytes. -/
theorem takeBytes_append : ∀ (bs : List Nat) (rest : List WItem),
    takeBytes bs.length (bs.map .byte ++ rest) = some (bs, rest)
  | [], rest => rfl
  | b :: bs, rest => by
    show (takeBytes bs.length (bs.map .byte ++ rest)).map _ = _
    rw [takeBytes_append bs rest]
    rfl

/-- Two's-complement reconstruction over an arbitrary positive half-range. -/
theorem twoc_core (H e : Int) (hH : 0 < H) (h1 : -H ≤ e) (h2 : e < H) :
    (if H ≤ e % (H * 2) then e % (H * 2) - H * 2 else e % (H * 2)) = e := by
  rcases le_or_lt 0 e with he | he
  · have hem : e % (H * 2) = e := Int.emod_eq_of_lt he (by linarith)
    rw [hem, if_neg (not_le.mpr h2)]
  · have h3 : (e + H * 2 * 1) % (H * 2) = e % (H * 2) :=
      Int.add_mul_emod_self_left e (H * 2) 1
    rw [mul_one] at h3
    have hem : e % (H * 2) = e + H * 2 := by
      rw [← h3]
      exact Int.emod_eq_of_lt (by linarith) (by linarith)
    rw [hem, if_pos (by linarith)]
    ring

/-- Two's-complement reconstruction: a `k`-byte signed value in range comes
back from its `mod 2^(8k)` representative. -/
theorem sint_recon (k : Nat) (hk : 1 ≤ k) (e : Int)
    (h1 : -((2 : Int) ^ (8 * k - 1)) ≤ e) (h2 : e < (2 : Int) ^ (8 * k - 1)) :
    (if (2 : Nat) ^ (8 * k - 1) ≤ (e % ((2 : Int) ^ (8 * k))).toNat then
      (((e % ((2 : Int) ^ (8 * k))).toNat : Nat) : Int) - (2 : Int) ^ (8 * k)
     else (((e % ((2 : Int) ^ (8 * k))).toNat : Nat) : Int)) = e := by
  have hexp : (2 : Int) ^ (8 * k) = (2 : Int) ^ (8 * k - 1) * 2 := by
    nth_rewrite 1 [show 8 * k = (8 * k - 1) + 1 from by omega]
    rw [pow_succ]
  rw [hexp]
  have hH : (0 : Int) < (2 : Int) ^ (8 * k - 1) := pow_pos (by norm_num) _
  have hnn : 0 ≤ e % ((2 : Int) ^ (8 * k - 1) * 2) :=
    Int.emod_nonneg e (by positivity)
  have hval : (((e % ((2 : Int) ^ (8 * k - 1) * 2)).toNat : Nat) : Int) =
      e % ((2 : Int) ^ (8 * k - 1) * 2) := Int.toNat_of_nonneg hnn
  have hcond : ((2 : Nat) ^ (8 * k - 1) ≤ (e % ((2 : Int) ^ (8 * k - 1) * 2)).toNat) ↔
      (2 : Int) ^ (8 * k - 1) ≤ e % ((2 : Int) ^ (8 * k - 1) * 2) := by
    rw [← Nat.cast_le (α := Int), hval]
    push_cast
    rfl
  have hcore := twoc_core ((2 : Int) ^ (8 * k - 1)) e hH h1 h2
  by_cases hc : (2 : Int) ^ (8 * k - 1) ≤ e % ((2 : Int) ^ (8 * k - 1) * 2)
  · rw [if_pos (hcond.mpr hc), hval]
    rw [if_pos hc] at hcore
    exact hcore
  · rw [if_neg (fun hx => hc (hcond.mp hx)), hval]
    rw [if_neg hc] at hcore
    exact hcore

/-- The packed bytes of an in-range signed value unpack to it. -/
theorem unpack_sint (k : Nat) (hk : 1 ≤ k) (e : Int)
    (h1 : -((2 : Int) ^ (8 * k - 1)) ≤ e) (h2 : e < (2 : Int) ^ (8 * k - 1))
    (rest : List WItem) :
    unpackSType (.sint k)
      ((natToLE k ((e % ((2 : Int) ^ (8 * k))).toNat)).map .byte ++ rest) =
      some (.i e, rest) := by
  have hlen := natToLE_length k ((e % ((2 : Int) ^ (8 * k))).toNat)
  have htb := takeBytes_append (natToLE k ((e % ((2 : Int) ^ (8 * k))).toNat)) rest
  rw [hlen] at htb
  have hM0 : (0 : Int) < (2 : Int) ^ (8 * k) := pow_pos (by norm_num) _
  have hub : e % ((2 : Int) ^ (8 * k)) < (2 : Int) ^ (8 * k) :=
    Int.emod_lt_of_pos e hM0
  have hnn : 0 ≤ e % ((2 : Int) ^ (8 * k)) := Int.emod_nonneg e (ne_of_gt hM0)
  have hcast : (((2 : Nat) ^ (8 * k) : Nat) : Int) = (2 : Int) ^ (8 * k) := by push_cast; rfl
  have hlt : (e % ((2 : Int) ^ (8 * k))).toNat < 256 ^ k := by
    rw [pow256]
    omega
  have hmod : (e % ((2 : Int) ^ (8 * k))).toNat % 256 ^ k =
      (e % ((2 : Int) ^ (8 * k))).toNat := Nat.mod_eq_of_lt hlt
  simp only [unpackSType, htb, Option.bind_eq_bind, Option.some_bind, leToNat_natToLE, hmod]
  rw [sint_recon k hk e h1 h2]
  rfl

/-- The packed bytes of an in-range unsigned value unpack to it. -/
theorem unpack_uint (k : Nat) (e : Int) (h1 : 0 ≤ e) (h2 : e < (2 : Int) ^ (8 * k))
    (rest : List WItem) :
    unpackSType (.uint k) ((natToLE k e.toNat).map .byte ++ rest) = some (.i e, rest) := by
  have hlen := natToLE_length k e.toNat
  have htb := takeBytes_append (natToLE k e.toNat) rest
  rw [hlen] at htb
  have hcast : (((2 : Nat) ^ (8 * k) : Nat) : Int) = (2 : Int) ^ (8 * k) := by push_cast; rfl
  have hlt : e.toNat < 256 ^ k := by
    rw [pow256]
    omega
  have hmod : e.toNat % 256 ^ k = e.toNat := Nat.mod_eq_of_lt hlt
  simp only [unpackSType, htb, Option.bind_eq_bind, Option.some_bind, leToNat_natToLE, hmod]
  rw [Int.toNat_of_nonneg h1]
  rfl

/-- Serialised int16 arrays take two bytes per entry. -/
theorem arrBytes_length (xs : List Int) : (arrBytes xs).length = 2 * xs.length := by
  induction xs with
  | nil => rfl
  | cons x xs ih =>
    show (int16LE x ++ arrBytes xs).length = 2 * (xs.length + 1)
    rw [List.length_append, ih]
    have : (int16LE x).length = 2 := natToLE_length 2 _
    omega

/-- Reassembling little-endian int16 pairs inverts the serialisation when
every entry is in int16 range. -/
theorem bytesToInt16s_arrBytes (xs : List Int)
    (h : ∀ x ∈ xs, -32768 ≤ x ∧ x < 32768) :
    bytesToInt16s (arrBytes xs) = xs := by
  induction xs with
  | nil => rfl
  | cons x xs ih =>
    obtain ⟨hx1, hx2⟩ := h x (List.mem_cons_self x xs)
    have hrest : ∀ y ∈ xs, -32768 ≤ y ∧ y < 32768 :=
      fun y hy => h y (List.mem_cons_of_mem x hy)
    show bytesToInt16s (int16LE x ++ arrBytes xs) = x :: xs
    have h65 : (0 : Int) < 65536 := by norm_num
    have hnn : 0 ≤ x % (65536 : Int) := Int.emod_nonneg x (ne_of_gt h65)
    have hub : x % (65536 : Int) < 65536 := Int.emod_lt_of_pos x h65
    show bytesToInt16s
        (((x % (65536 : Int)).toNat % 256) ::
          (((x % (65536 : Int)).toNat / 256) % 256) :: ([] ++ arrBytes xs)) = x :: xs
    rw [bytesToInt16s, List.nil_append, ih hrest]
    have hn : (x % (65536 : Int)).toNat % 256 +
        256 * ((x % (65536 : Int)).toNat / 256 % 256) = (x % (65536 : Int)).toNat := by
      omega
    rw [hn]
    have e1 : ((2 : Int) ^ (8 * 2 - 1)) = 32768 := by norm_num
    have e2 : ((2 : Int) ^ (8 * 2)) = 65536 := by norm_num
    have e3 : ((2 : Nat) ^ (8 * 2 - 1)) = 32768 := by norm_num
    have hr := sint_recon 2 (by norm_num) x (by rw [e1]; exact hx1) (by rw [e1]; exact hx2)
    rw [e2, e3] at hr
    show (if (32768 : Nat) ≤ (x % (65536 : Int)).toNat then
        (((x % (65536 : Int)).toNat : Nat) : Int) - 65536
      else (((x % (65536 : Int)).toNat : Nat) : Int)) :: xs = x :: xs
    rw [hr]

/-- Everything `null_term` keeps is a non-NUL byte. -/
theorem nullTerm_ne_zero (bs : List Nat) : ∀ x ∈ nullTerm bs, x ≠ 0 := by
  intro x hx
  unfold nullTerm at hx
  have h := List.mem_takeWhile_imp hx
  simpa using h

/-- `takeWhile` passes over a block that satisfies the predicate. -/
theorem takeWhile_all_append {α : Type} (p : α → Bool) :
    ∀ (l l' : List α), (∀ x ∈ l, p x = true) →
      (l ++ l').takeWhile p = l ++ l'.takeWhile p := by
  intro l
  induction l with
  | nil => intro l' _; rfl
  | cons a l ih =>
    intro l' h
    rw [List.cons_append, List.takeWhile_cons_of_pos (h a (List.mem_cons_self a l)),
      ih l' (fun x hx => h x (List.mem_cons_of_mem a hx)), List.cons_append]

/-- Null-terminating once more after zero padding changes nothing. -/
theorem nullTerm_pad (bs : List Nat) (j : Nat) :
    nullTerm (nullTerm bs ++ List.replicate j 0) = nullTerm bs := by
  show (nullTerm bs ++ List.replicate j 0).takeWhile _ = nullTerm bs
  rw [takeWhile_all_append _ _ _
    (fun x hx => decide_eq_true (nullTerm_ne_zero bs x hx))]
  cases j with
  | zero => simp
  | succ j => rw [List.replicate_succ]; simp [List.takeWhile_cons]

/-- No occurrence of `nm` in `cols` means the filtered enumeration is empty. -/
theorem enumFrom_filter_nil (nm : String) :
    ∀ (cols : List String) (s : Nat), nm ∉ cols →
      (cols.enumFrom s).filter (fun p => p.2 = nm) = [] := by
  intro cols
  induction cols with
  | nil => intro s _; rfl
  | cons c rest ih =>
    intro s h
    have hc : ¬ c = nm := fun hcn => h (hcn ▸ List.mem_cons_self c rest)
    show List.filter _ ((s, c) :: rest.enumFrom (s + 1)) = []
    rw [List.filter_cons_of_neg (by simpa using hc)]
    exact ih (s + 1) (fun hmem => h (List.mem_cons_of_mem c hmem))

/-- In a duplicate-free column list the filtered enumeration of a present
name is the singleton at its index. -/
theorem enumFrom_filter_eq (nm : String) :
    ∀ (cols : List String) (s i : Nat), cols.Nodup → cols.get? i = some nm →
      (cols.enumFrom s).filter (fun p => p.2 = nm) = [(s + i, nm)] := by
  intro cols
  induction cols with
  | nil => intro s i _ h; simp at h
  | cons c rest ih =>
    intro s i hnd h
    obtain ⟨hcr, hrest⟩ := List.nodup_cons.mp hnd
    show List.filter _ ((s, c) :: rest.enumFrom (s + 1)) = _
    cases i with
    | zero =>
      have hc : c = nm := by simpa using h
      subst hc
      rw [List.filter_cons_of_pos (by simp), enumFrom_filter_nil c rest (s + 1) hcr]
      simp
    | succ i =>
      have hr : rest.get? i = some nm := h
      have hmem : nm ∈ rest := List.get?_mem hr
      have hc : ¬ c = nm := fun hcn => hcr (hcn ▸ hmem)
      rw [List.filter_cons_of_neg (by simpa using hc), ih (s + 1) i hrest hr]
      have : s + 1 + i = s + (i + 1) := by omega
      rw [this]

/-- `colhash` of a duplicate-free column list maps each name to its index. -/
theorem colIndex_nodup (cols : List String) (hnd : cols.Nodup) (i : Nat) (nm : String)
    (h : cols.get? i = some nm) : colIndex cols nm = some i := by
  show (((cols.enumFrom 0).filter _).getLast?).map Prod.fst = some i
  rw [enumFrom_filter_eq nm cols 0 i hnd h]
  simp

/-- `round` of an integer is itself. -/
theorem pyRound_intCast (e : Int) : pyRound ((e : ℚ)) = e := by
  unfold pyRound
  simp only [Int.floor_intCast, sub_self]
  norm_num

/-- `get?` into a `zipWith`, in the shape the round-trip proofs use. -/
theorem get?_zipWith_some {α β γ : Type} (f : α → β → γ) (l₁ : List α) (l₂ : List β)
    (i : Nat) (a : α) (b : β) (h₁ : l₁.get? i = some a) (h₂ : l₂.get? i = some b) :
    (List.zipWith f l₁ l₂).get? i = some (f a b) := by
  rw [List.get?_zipWith' f l₁ l₂ i, h₁, h₂]
  rfl

/-- Shape of a well-formed element in a signed-integer slot. -/
theorem elemWF_sint (c : Char) (k : Nat) (v : DFValue) (hca : ¬ c = 'a')
    (hst : charSType c = some (.sint k)) (hwf : elemWF c v = true) :
    ∃ e, v = .i e ∧ -((2 : Int) ^ (8 * k - 1)) ≤ e ∧ e < (2 : Int) ^ (8 * k - 1) := by
  unfold elemWF at hwf
  rw [if_neg hca, hst] at hwf
  cases v <;> simp only [decide_eq_true_eq] at hwf
  case i e => exact ⟨e, rfl, hwf⟩
  all_goals cases hwf

/-- Shape of a well-formed element in an unsigned-integer slot. -/
theorem elemWF_uint (c : Char) (k : Nat) (v : DFValue) (hca : ¬ c = 'a')
    (hst : charSType c = some (.uint k)) (hwf : elemWF c v = true) :
    ∃ e, v = .i e ∧ 0 ≤ e ∧ e < (2 : Int) ^ (8 * k) := by
  unfold elemWF at hwf
  rw [if_neg hca, hst] at hwf
  cases v <;> simp only [decide_eq_true_eq] at hwf
  case i e => exact ⟨e, rfl, hwf⟩
  all_goals cases hwf

/-- Shape of a well-formed element in a float slot. -/
theorem elemWF_flt (c : Char) (k : Nat) (v : DFValue) (hca : ¬ c = 'a')
    (hst : charSType c = some (.flt k)) (hwf : elemWF c v = true) :
    ∃ x, v = .q x := by
  unfold elemWF at hwf
  rw [if_neg hca, hst] at hwf
  cases v <;> simp only [decide_eq_true_eq] at hwf
  case q x => exact ⟨x, rfl⟩
  all_goals cases hwf

/-- Shape of a well-formed element in a string slot (non-`a` char). -/
theorem elemWF_strT (c : Char) (k : Nat) (v : DFValue) (hca : ¬ c = 'a')
    (hst : charSType c = some (.strT k)) (hwf : elemWF c v = true) :
    ∃ bs, v = .s bs ∧ (nullTerm bs).length ≤ k := by
  unfold elemWF at hwf
  rw [if_neg hca, hst] at hwf
  cases v <;> simp only [decide_eq_true_eq] at hwf
  case s bs => exact ⟨bs, rfl, hwf⟩
  all_goals cases hwf

/-- Shape of a well-formed `a` element. -/
theorem elemWF_arr (v : DFValue) (hwf : elemWF 'a' v = true) :
    ∃ xs, v = .arr xs ∧ xs.length = 32 ∧ ∀ x ∈ xs, -32768 ≤ x ∧ x < 32768 := by
  unfold elemWF at hwf
  rw [if_pos rfl] at hwf
  cases v <;> simp only [Bool.and_eq_true, decide_eq_true_eq, List.all_eq_true] at hwf
  case arr xs => exact ⟨xs, rfl, hwf.1, fun x hx => hwf.2 x hx⟩
  all_goals cases hwf

/-- A float block is `k` items long. -/
theorem fblock_length (x : ℚ) (k : Nat) : (fblock x k).length = k := by
  simp [fblock]

/-- The head shape of a non-empty float block. -/
theorem fblock_cons (x : ℚ) (k : Nat) :
    fblock x (k + 1) = WItem.fbyte x 0 :: (List.range k).map (fun j => WItem.fbyte x (j + 1)) := by
  rw [fblock, List.range_succ_eq_map, List.map_cons, List.map_map]
  rfl

/-- A packed float block unpacks to its value. -/
theorem unpack_flt (k : Nat) (hk : 1 ≤ k) (x : ℚ) (rest : List WItem) :
    unpackSType (.flt k) (fblock x k ++ rest) = some (.q x, rest) := by
  obtain ⟨k', rfl⟩ : ∃ k', k = k' + 1 := ⟨k - 1, by omega⟩
  rw [fblock_cons, List.cons_append]
  show (if (WItem.fbyte x 0 :: ((List.range k').map (fun j => WItem.fbyte x (j + 1)) ++ rest)).take (k' + 1) =
        fblock x (k' + 1) then
      some (DFValue.q x, (WItem.fbyte x 0 :: ((List.range k').map (fun j => WItem.fbyte x (j + 1)) ++ rest)).drop (k' + 1))
    else none) = some (.q x, rest)
  rw [← List.cons_append, ← fblock_cons]
  rw [if_pos (List.take_left' (fblock_length x (k' + 1))),
    List.drop_left' (fblock_length x (k' + 1))]

/-- Packing a well-formed encoded element succeeds and yields its slot. -/
theorem packSType_encSlot (c : Char) (st : SType) (v : DFValue)
    (hst : charSType c = some st) (hwf : elemWF c v = true) :
    packSType st (encSlot v) = some (slotW c v) := by
  by_cases hca : c = 'a'
  · subst hca
    obtain ⟨xs, rfl, hlen, _⟩ := elemWF_arr v hwf
    have hst64 : st = .strT 64 := by
      have h : (some (SType.strT 64) : Option SType) = some st := by rw [← hst]; decide
      injection h with h2
      exact h2.symm
    subst hst64
    have hsl : slotW 'a' (DFValue.arr xs) = (arrBytes xs).map WItem.byte := rfl
    have hl : (arrBytes xs).length = 64 := by rw [arrBytes_length, hlen]
    have hpk : packSType (SType.strT 64) (encSlot (DFValue.arr xs)) =
        some (((arrBytes xs).take 64 ++
          List.replicate (64 - (arrBytes xs).length) 0).map WItem.byte) := rfl
    rw [hpk, hsl, List.take_of_length_le (le_of_eq hl), hl]
    simp only [Nat.sub_self, List.replicate_zero, List.append_nil]
  · cases st with
    | sint k =>
      obtain ⟨e, rfl, h1, h2⟩ := elemWF_sint c k v hca hst hwf
      have hsl : slotW c (DFValue.i e) =
          (natToLE k ((e % ((2 : Int) ^ (8 * k))).toNat)).map WItem.byte := by
        simp only [slotW, hst]
      rw [hsl]
      show packInt (.sint k) e = _
      simp only [packInt]
      rw [if_pos ⟨h1, h2⟩]
    | uint k =>
      obtain ⟨e, rfl, h1, h2⟩ := elemWF_uint c k v hca hst hwf
      have hsl : slotW c (DFValue.i e) = (natToLE k e.toNat).map WItem.byte := by
        simp only [slotW, hst]
      rw [hsl]
      show packInt (.uint k) e = _
      simp only [packInt]
      rw [if_pos ⟨h1, h2⟩]
    | flt k =>
      obtain ⟨x, rfl⟩ := elemWF_flt c k v hca hst hwf
      have hsl : slotW c (DFValue.q x) = fblock x k := by
        simp only [slotW, hst]
      rw [hsl]
      rfl
    | strT k =>
      obtain ⟨bs, rfl, hle⟩ := elemWF_strT c k v hca hst hwf
      have hsl : slotW c (DFValue.s bs) =
          (nullTerm bs ++ List.replicate (k - (nullTerm bs).length) 0).map WItem.byte := by
        simp only [slotW, hst]
      have hpk : packSType (SType.strT k) (encSlot (DFValue.s bs)) =
          some (((nullTerm bs).take k ++
            List.replicate (k - (nullTerm bs).length) 0).map WItem.byte) := rfl
      rw [hpk, hsl, List.take_of_length_le hle]

/-- Each slot occupies exactly its char's byte count on the wire. -/
theorem slotW_length (c : Char) (st : SType) (v : DFValue)
    (hst : charSType c = some st) (hwf : elemWF c v = true) :
    charSize c = some (slotW c v).length := by
  have hsz : charSize c = (charSType c).map (fun t => match t with
    | .sint k => k | .uint k => k | .flt k => k | .strT k => k) := rfl
  by_cases hca : c = 'a'
  · subst hca
    obtain ⟨xs, rfl, hlen, _⟩ := elemWF_arr v hwf
    have hsl : slotW 'a' (DFValue.arr xs) = (arrBytes xs).map WItem.byte := rfl
    rw [hsl]
    show some 64 = some ((arrBytes xs).map WItem.byte).length
    rw [List.length_map, arrBytes_length, hlen]
  · rw [hsz, hst]
    cases st with
    | sint k =>
      obtain ⟨e, rfl, _, _⟩ := elemWF_sint c k v hca hst hwf
      have hsl : slotW c (DFValue.i e) =
          (natToLE k ((e % ((2 : Int) ^ (8 * k))).toNat)).map WItem.byte := by
        simp only [slotW, hst]
      rw [hsl]
      simp [natToLE_length]
    | uint k =>
      obtain ⟨e, rfl, _, _⟩ := elemWF_uint c k v hca hst hwf
      have hsl : slotW c (DFValue.i e) = (natToLE k e.toNat).map WItem.byte := by
        simp only [slotW, hst]
      rw [hsl]
      simp [natToLE_length]
    | flt k =>
      obtain ⟨x, rfl⟩ := elemWF_flt c k v hca hst hwf
      have hsl : slotW c (DFValue.q x) = fblock x k := by
        simp only [slotW, hst]
      rw [hsl]
      simp [fblock_length]
    | strT k =>
      obtain ⟨bs, rfl, hle⟩ := elemWF_strT c k v hca hst hwf
      have hsl : slotW c (DFValue.s bs) =
          (nullTerm bs ++ List.replicate (k - (nullTerm bs).length) 0).map WItem.byte := by
        simp only [slotW, hst]
      rw [hsl]
      simp only [Option.map_some', Option.some.injEq, List.length_map, List.length_append,
        List.length_replicate]
      omega

/-- Unpacking one packed slot recovers the pre-transform element. -/
theorem unpackSType_slotW (c : Char) (st : SType) (v : DFValue) (rest : List WItem)
    (hst : charSType c = some st) (hwf : elemWF c v = true) :
    unpackSType st (slotW c v ++ rest) = some (rawDec c v, rest) := by
  by_cases hca : c = 'a'
  · subst hca
    obtain ⟨xs, rfl, hlen, _⟩ := elemWF_arr v hwf
    have hst64 : st = .strT 64 := by
      have h : (some (SType.strT 64) : Option SType) = some st := by rw [← hst]; decide
      injection h with h2
      exact h2.symm
    subst hst64
    have hsl : slotW 'a' (DFValue.arr xs) = (arrBytes xs).map WItem.byte := rfl
    have hrd : rawDec 'a' (DFValue.arr xs) = .s (arrBytes xs) := rfl
    rw [hsl, hrd]
    have hl : (arrBytes xs).length = 64 := by rw [arrBytes_length, hlen]
    have htb := takeBytes_append (arrBytes xs) rest
    rw [hl] at htb
    simp only [unpackSType, htb, Option.bind_eq_bind, Option.some_bind]
    rfl
  · cases st with
    | sint k =>
      obtain ⟨e, rfl, h1, h2⟩ := elemWF_sint c k v hca hst hwf
      obtain ⟨hk, _⟩ := sint_facts c k hst
      have hsl : slotW c (DFValue.i e) =
          (natToLE k ((e % ((2 : Int) ^ (8 * k))).toNat)).map WItem.byte := by
        simp only [slotW, hst]
      have hrd : rawDec c (DFValue.i e) = .i e := by
        simp only [rawDec, hst]
      rw [hsl, hrd]
      exact unpack_sint k hk e h1 h2 rest
    | uint k =>
      obtain ⟨e, rfl, h1, h2⟩ := elemWF_uint c k v hca hst hwf
      have hsl : slotW c (DFValue.i e) = (natToLE k e.toNat).map WItem.byte := by
        simp only [slotW, hst]
      have hrd : rawDec c (DFValue.i e) = .i e := by
        simp only [rawDec, hst]
      rw [hsl, hrd]
      exact unpack_uint k e h1 h2 rest
    | flt k =>
      obtain ⟨x, rfl⟩ := elemWF_flt c k v hca hst hwf
      obtain ⟨hk, _, _⟩ := flt_facts c k hst
      have hsl : slotW c (DFValue.q x) = fblock x k := by
        simp only [slotW, hst]
      have hrd : rawDec c (DFValue.q x) = .q x := by
        simp only [rawDec, hst]
      rw [hsl, hrd]
      exact unpack_flt k hk x rest
    | strT k =>
      obtain ⟨bs, rfl, hle⟩ := elemWF_strT c k v hca hst hwf
      have hsl : slotW c (DFValue.s bs) =
          (nullTerm bs ++ List.replicate (k - (nullTerm bs).length) 0).map WItem.byte := by
        simp only [slotW, hst]
      have hrd : rawDec c (DFValue.s bs) =
          .s (nullTerm bs ++ List.replicate (k - (nullTerm bs).length) 0) := by
        simp only [rawDec, hst]
      rw [hsl, hrd]
      have hl : (nullTerm bs ++ List.replicate (k - (nullTerm bs).length) 0).length = k := by
        rw [List.length_append, List.length_replicate]
        omega
      have htb := takeBytes_append (nullTerm bs ++ List.replicate (k - (nullTerm bs).length) 0) rest
      rw [hl] at htb
      simp only [unpackSType, htb, Option.bind_eq_bind, Option.some_bind]
      rfl

/-- `packSeq` over well-formed encoded elements yields the concatenated
slots. -/
theorem packSeq_spec : ∀ (fcs : List Char) (vs : List DFValue),
    fcs.length = vs.length →
    (∀ p ∈ fcs.zip vs, elemWF p.1 p.2 = true) →
    packSeq fcs (vs.map encSlot) = some ((List.zipWith slotW fcs vs).flatten) := by
  intro fcs
  induction fcs with
  | nil =>
    intro vs hl _
    cases vs
    · rfl
    · simp at hl
  | cons c cs ih =>
    intro vs hl hwf
    cases vs with
    | nil => simp at hl
    | cons v vs' =>
      have hwfh : elemWF c v = true := hwf (c, v) (by simp [List.zip_cons_cons])
      have hwft : ∀ p ∈ cs.zip vs', elemWF p.1 p.2 = true :=
        fun p hp => hwf p (by simp [List.zip_cons_cons, hp])
      obtain ⟨st, hst⟩ := elemWF_sType c v hwfh
      show (do
        let st ← charSType c
        let w ← packSType st (encSlot v)
        let ws ← packSeq cs (vs'.map encSlot)
        pure (w ++ ws)) = _
      rw [hst]
      simp only [Option.bind_eq_bind, Option.some_bind]
      rw [packSType_encSlot c st v hst hwfh,
        ih vs' (by simpa using hl) hwft]
      simp only [Option.some_bind]
      rw [List.zipWith_cons_cons, List.flatten_cons]
      rfl

/-- `unpackSeq` recovers the raw elements from the concatenated slots. -/
theorem unpackSeq_spec : ∀ (fcs : List Char) (vs : List DFValue),
    fcs.length = vs.length →
    (∀ p ∈ fcs.zip vs, elemWF p.1 p.2 = true) →
    unpackSeq fcs ((List.zipWith slotW fcs vs).flatten) =
      some (List.zipWith rawDec fcs vs) := by
  intro fcs
  induction fcs with
  | nil =>
    intro vs hl _
    cases vs
    · rfl
    · simp at hl
  | cons c cs ih =>
    intro vs hl hwf
    cases vs with
    | nil => simp at hl
    | cons v vs' =>
      have hwfh : elemWF c v = true := hwf (c, v) (by simp [List.zip_cons_cons])
      have hwft : ∀ p ∈ cs.zip vs', elemWF p.1 p.2 = true :=
        fun p hp => hwf p (by simp [List.zip_cons_cons, hp])
      obtain ⟨st, hst⟩ := elemWF_sType c v hwfh
      rw [List.zipWith_cons_cons, List.flatten_cons]
      show (do
        let st ← charSType c
        let (v, rest) ← unpackSType st (slotW c v ++ (List.zipWith slotW cs vs').flatten)
        let vs ← unpackSeq cs rest
        pure (v :: vs)) = _
      rw [hst]
      simp only [Option.bind_eq_bind, Option.some_bind]
      rw [unpackSType_slotW c st v _ hst hwfh]
      simp only [Option.some_bind]
      rw [ih vs' (by simpa using hl) hwft]
      rfl

/-- Head equation of `wireSize`. -/
theorem wireSize_cons (c : Char) (cs : List Char) :
    wireSize (c :: cs) = (do
      let k ← charSize c
      let s ← wireSize cs
      pure (k + s) : Option Nat) := rfl

/-- The concatenated slots occupy exactly the format's wire size. -/
theorem flatten_slotW_length : ∀ (fcs : List Char) (vs : List DFValue),
    fcs.length = vs.length →
    (∀ p ∈ fcs.zip vs, elemWF p.1 p.2 = true) →
    wireSize fcs = some ((List.zipWith slotW fcs vs).flatten).length := by
  intro fcs
  induction fcs with
  | nil =>
    intro vs hl _
    cases vs
    · rfl
    · simp at hl
  | cons c cs ih =>
    intro vs hl hwf
    cases vs with
    | nil => simp at hl
    | cons v vs' =>
      have hwfh : elemWF c v = true := hwf (c, v) (by simp [List.zip_cons_cons])
      have hwft : ∀ p ∈ cs.zip vs', elemWF p.1 p.2 = true :=
        fun p hp => hwf p (by simp [List.zip_cons_cons, hp])
      obtain ⟨st, hst⟩ := elemWF_sType c v hwfh
      rw [wireSize_cons, slotW_length c st v hst hwfh, ih vs' (by simpa using hl) hwft]
      simp only [Option.bind_eq_bind, Option.some_bind, List.zipWith_cons_cons,
        List.flatten_cons, List.length_append]
      rfl

/-- Membership in the enumeration is `get?`. -/
theorem mem_enum_iff (l : List Char) (i : Nat) (c : Char) :
    (i, c) ∈ l.enum ↔ l.get? i = some c := by
  constructor
  · intro h
    obtain ⟨n, hn⟩ := List.mem_iff_get?.mp h
    rw [List.get?_enum] at hn
    rcases hg : l.get? n with _ | a
    · rw [hg] at hn; cases hn
    · rw [hg] at hn
      simp only [Option.map_some', Option.some.injEq, Prod.mk.injEq] at hn
      obtain ⟨rfl, rfl⟩ := hn
      exact hg
  · intro h
    have hn : l.enum.get? i = some (i, c) := by
      rw [List.get?_enum, h]
      rfl
    exact List.get?_mem hn

/-- `a_indexes` holds exactly the positions of `a` chars. -/
theorem mem_aIndexes (format : List Char) (i : Nat) :
    i ∈ aIndexes format ↔ format.get? i = some 'a' := by
  unfold aIndexes
  rw [List.mem_map]
  constructor
  · rintro ⟨⟨j, c⟩, hp, rfl⟩
    obtain ⟨hmem, hq⟩ := List.mem_filter.mp hp
    have hc : c = 'a' := by simpa using hq
    subst hc
    exact (mem_enum_iff format j 'a').mp hmem
  · intro h
    exact ⟨(i, 'a'), List.mem_filter.mpr ⟨(mem_enum_iff format i 'a').mpr h, by simp⟩, rfl⟩

/-- Outside `a` columns the raw decode is already the final element. -/
theorem rawDec_eq_decSlot (c : Char) (v : DFValue) (hca : ¬ c = 'a')
    (hwf : elemWF c v = true) : rawDec c v = decSlot c v := by
  obtain ⟨st, hst⟩ := elemWF_sType c v hwf
  cases st with
  | sint k =>
    obtain ⟨e, rfl, _, _⟩ := elemWF_sint c k v hca hst hwf
    simp only [rawDec, decSlot, hst, if_neg hca]
  | uint k =>
    obtain ⟨e, rfl, _, _⟩ := elemWF_uint c k v hca hst hwf
    simp only [rawDec, decSlot, hst, if_neg hca]
  | flt k =>
    obtain ⟨x, rfl⟩ := elemWF_flt c k v hca hst hwf
    simp only [rawDec, decSlot, hst, if_neg hca]
  | strT k =>
    obtain ⟨bs, rfl, _⟩ := elemWF_strT c k v hca hst hwf
    simp only [rawDec, decSlot, hst, if_neg hca]

/-- The decoded element of a well-formed slot is well-formed again. -/
theorem elemWF_decSlot (c : Char) (v : DFValue) (hwf : elemWF c v = true) :
    elemWF c (decSlot c v) = true := by
  by_cases hca : c = 'a'
  · subst hca
    have h : decSlot 'a' v = v := rfl
    rw [h]
    exact hwf
  · obtain ⟨st, hst⟩ := elemWF_sType c v hwf
    cases st with
    | sint k =>
      obtain ⟨e, rfl, _, _⟩ := elemWF_sint c k v hca hst hwf
      simp only [decSlot, hst, if_neg hca]
      exact hwf
    | uint k =>
      obtain ⟨e, rfl, _, _⟩ := elemWF_uint c k v hca hst hwf
      simp only [decSlot, hst, if_neg hca]
      exact hwf
    | flt k =>
      obtain ⟨x, rfl⟩ := elemWF_flt c k v hca hst hwf
      simp only [decSlot, hst, if_neg hca]
      exact hwf
    | strT k =>
      obtain ⟨bs, rfl, hle⟩ := elemWF_strT c k v hca hst hwf
      simp only [decSlot, hst, if_neg hca]
      unfold elemWF
      rw [if_neg hca, hst]
      show decide ((nullTerm (nullTerm bs ++
        List.replicate (k - (nullTerm bs).length) 0)).length ≤ k) = true
      rw [nullTerm_pad]
      exact decide_eq_true hle

/-- Accessing the decoded element gives the same value as the original. -/
theorem gfVal_decSlot (c : Char) (v : DFValue) (hwf : elemWF c v = true) :
    gfVal c (decSlot c v) = gfVal c v := by
  by_cases hca : c = 'a'
  · subst hca
    have h : decSlot 'a' v = v := rfl
    rw [h]
  · obtain ⟨st, hst⟩ := elemWF_sType c v hwf
    cases st with
    | sint k =>
      obtain ⟨e, rfl, _, _⟩ := elemWF_sint c k v hca hst hwf
      simp only [decSlot, hst, if_neg hca]
    | uint k =>
      obtain ⟨e, rfl, _, _⟩ := elemWF_uint c k v hca hst hwf
      simp only [decSlot, hst, if_neg hca]
    | flt k =>
      obtain ⟨x, rfl⟩ := elemWF_flt c k v hca hst hwf
      simp only [decSlot, hst, if_neg hca]
    | strT k =>
      obtain ⟨bs, rfl, _⟩ := elemWF_strT c k v hca hst hwf
      obtain ⟨_, hcm⟩ := strT_facts c k hst
      simp only [decSlot, hst, if_neg hca, gfVal, hcm]
      rw [nullTerm_pad]

/-- The `a`-column transform turns the raw decodes into the final
elements. -/
theorem applyATransform_zip (fmt : DFFormat) (vs : List DFValue)
    (hl : fmt.format.length = vs.length)
    (hwf : ∀ p ∈ fmt.format.zip vs, elemWF p.1 p.2 = true) :
    applyATransform fmt (List.zipWith rawDec fmt.format vs) =
      List.zipWith decSlot fmt.format vs := by
  apply List.ext_get?
  intro i
  unfold applyATransform
  rw [List.get?_map, List.get?_enum]
  rcases hfc : fmt.format.get? i with _ | c
  · have hif : fmt.format.length ≤ i := by
      by_contra hlt
      push_neg at hlt
      rw [List.get?_eq_get hlt] at hfc
      cases hfc
    have h1 : (List.zipWith rawDec fmt.format vs).get? i = none := by
      rw [List.get?_zipWith', hfc]
      rfl
    have h2 : (List.zipWith decSlot fmt.format vs).get? i = none := by
      rw [List.get?_zipWith', hfc]
      rfl
    rw [h1, h2]
    rfl
  · have hlt : i < fmt.format.length := by
      by_contra hge
      push_neg at hge
      rw [List.get?_eq_none.mpr hge] at hfc
      cases hfc
    have hlt' : i < vs.length := hl ▸ hlt
    obtain ⟨v, hv⟩ : ∃ v, vs.get? i = some v := ⟨_, List.get?_eq_get hlt'⟩
    have hwfi : elemWF c v = true := by
      apply hwf (c, v)
      rw [List.zip_eq_zipWith]
      exact List.get?_mem (get?_zipWith_some Prod.mk _ _ i c v hfc hv)
    rw [get?_zipWith_some rawDec _ _ i c v hfc hv,
      get?_zipWith_some decSlot _ _ i c v hfc hv]
    simp only [Option.map_some', Option.some.injEq]
    by_cases hia : i ∈ aIndexes fmt.format
    · have hca : c = 'a' := by
        have h := (mem_aIndexes fmt.format i).mp hia
        rw [hfc] at h
        injection h
      subst hca
      obtain ⟨xs, rfl, hlen, hrange⟩ := elemWF_arr v hwfi
      have hrd : rawDec 'a' (DFValue.arr xs) = .s (arrBytes xs) := rfl
      have hds : decSlot 'a' (DFValue.arr xs) = .arr xs := rfl
      rw [hrd, hds, if_pos hia]
      have hlb : (arrBytes xs).length % 2 = 0 := by
        rw [arrBytes_length]
        omega
      show (if (arrBytes xs).length % 2 = 0 then DFValue.arr (bytesToInt16s (arrBytes xs))
        else DFValue.s (arrBytes xs)) = DFValue.arr xs
      rw [if_pos hlb, bytesToInt16s_arrBytes xs hrange]
    · have hca : ¬ c = 'a' := by
        intro h
        exact hia ((mem_aIndexes fmt.format i).mpr (h ▸ hfc))
      rw [if_neg hia]
      exact rawDec_eq_decSlot c v hca hwfi

/-- `__getattr__` on a well-formed column, with multipliers applied. -/
theorem getField_spec (m : DFMessage) (i : Nat) (c : Char) (v : DFValue) (nm : String)
    (hap : m.applyMult = true)
    (hnd : m.fmt.columns.Nodup)
    (hnf : ¬ m.fmt.name = "FILE")
    (hmm : m.fmt.msg_mults = m.fmt.format.map charMult)
    (hcol : m.fmt.columns.get? i = some nm)
    (hfmt : m.fmt.format.get? i = some c)
    (helem : m.elements.get? i = some v)
    (hwf : elemWF c v = true) :
    getField m nm = some (gfVal c v) := by
  have hci : colIndex m.fmt.columns nm = some i := colIndex_nodup _ hnd i nm hcol
  have hmul : m.fmt.msg_mults.get? i = some (charMult c) := by
    rw [hmm, List.get?_map, hfmt]
    rfl
  have hif : ¬ (c = 'Z' ∧ m.fmt.name = "FILE") := fun h => hnf h.2
  by_cases hca : c = 'a'
  · subst hca
    obtain ⟨xs, rfl, _, _⟩ := elemWF_arr v hwf
    have hty : msgType 'a' = some PyTy.parr := rfl
    have hcm : charMult 'a' = none := rfl
    rw [hcm] at hmul
    simp only [getField, hci, helem, hfmt, hty, hmul, Option.bind_eq_bind, Option.some_bind]
    rw [if_pos trivial]
    rfl
  · obtain ⟨st, hst⟩ := elemWF_sType c v hwf
    cases st with
    | sint k =>
      obtain ⟨e, rfl, _, _⟩ := elemWF_sint c k v hca hst hwf
      rcases (sint_facts c k hst).2 with ⟨hcm, hty⟩ | ⟨mu, hcm, hty, hmu0, hmu1⟩
      · rw [hcm] at hmul
        have hgf : gfVal c (DFValue.i e) = .i e := by simp only [gfVal, hcm]
        rw [hgf]
        simp only [getField, hci, helem, hfmt, hty, hmul, Option.bind_eq_bind,
          Option.some_bind]
        rw [if_neg hif, if_neg hca, if_pos (Or.inr hap)]
        simp only [convPy, Option.some_bind]
        rw [if_neg (show ¬ (PyTy.pint = PyTy.pstr) from by decide)]
        rfl
      · rw [hcm] at hmul
        have hgf : gfVal c (DFValue.i e) =
            .q (if 0 < mu ∧ mu < 1 then (e : ℚ) / (1 / mu) else (e : ℚ) * mu) := by
          simp only [gfVal, hcm]
        rw [hgf]
        simp only [getField, hci, helem, hfmt, hty, hmul, Option.bind_eq_bind,
          Option.some_bind]
        rw [if_neg hif, if_neg hca, if_pos (Or.inr hap)]
        simp only [convPy, Option.some_bind]
        rw [if_neg (show ¬ (PyTy.pfloat = PyTy.pstr) from by decide)]
        simp only [hap, scaleMult]
        rw [if_pos trivial]
    | uint k =>
      obtain ⟨e, rfl, _, _⟩ := elemWF_uint c k v hca hst hwf
      rcases (uint_facts c k hst).2 with ⟨hcm, hty⟩ | ⟨mu, hcm, hty, hmu0, hmu1⟩
      · rw [hcm] at hmul
        have hgf : gfVal c (DFValue.i e) = .i e := by simp only [gfVal, hcm]
        rw [hgf]
        simp only [getField, hci, helem, hfmt, hty, hmul, Option.bind_eq_bind,
          Option.some_bind]
        rw [if_neg hif, if_neg hca, if_pos (Or.inr hap)]
        simp only [convPy, Option.some_bind]
        rw [if_neg (show ¬ (PyTy.pint = PyTy.pstr) from by decide)]
        rfl
      · rw [hcm] at hmul
        have hgf : gfVal c (DFValue.i e) =
            .q (if 0 < mu ∧ mu < 1 then (e : ℚ) / (1 / mu) else (e : ℚ) * mu) := by
          simp only [gfVal, hcm]
        rw [hgf]
        simp only [getField, hci, helem, hfmt, hty, hmul, Option.bind_eq_bind,
          Option.some_bind]
        rw [if_neg hif, if_neg hca, if_pos (Or.inr hap)]
        simp only [convPy, Option.some_bind]
        rw [if_neg (show ¬ (PyTy.pfloat = PyTy.pstr) from by decide)]
        simp only [hap, scaleMult]
        rw [if_pos trivial]
    | flt k =>
      obtain ⟨x, rfl⟩ := elemWF_flt c k v hca hst hwf
      obtain ⟨_, hty, hcm⟩ := flt_facts c k hst
      rw [hcm] at hmul
      have hgf : gfVal c (DFValue.q x) = .q x := by simp only [gfVal, hcm]
      rw [hgf]
      simp only [getField, hci, helem, hfmt, hty, hmul, Option.bind_eq_bind,
        Option.some_bind]
      rw [if_neg hif, if_neg hca, if_pos (Or.inr hap)]
      simp only [convPy, Option.some_bind]
      rw [if_neg (show ¬ (PyTy.pfloat = PyTy.pstr) from by decide)]
      rfl
    | strT k =>
      obtain ⟨bs, rfl, _⟩ := elemWF_strT c k v hca hst hwf
      obtain ⟨htyd, hcm⟩ := strT_facts c k hst
      have hty : msgType c = some PyTy.pstr := htyd.resolve_right hca
      rw [hcm] at hmul
      have hgf : gfVal c (DFValue.s bs) = .s (nullTerm bs) := by simp only [gfVal, hcm]
      rw [hgf]
      simp only [getField, hci, helem, hfmt, hty, hmul, Option.bind_eq_bind,
        Option.some_bind]
      rw [if_neg hif, if_neg hca, if_pos (Or.inr hap)]
      simp only [convPy, Option.some_bind]
      rfl

/-- One step of the `get_msgbuf` value loop on a well-formed column. -/
theorem msgbufValue1_spec (m : DFMessage) (i : Nat) (c : Char) (v : DFValue) (nm : String)
    (hap : m.applyMult = true)
    (hnd : m.fmt.columns.Nodup)
    (hnf : ¬ m.fmt.name = "FILE")
    (hmm : m.fmt.msg_mults = m.fmt.format.map charMult)
    (hmode : ¬ ("Mode" ∈ m.fmt.columns ∧ "ModeNum" ∈ m.fmt.columns))
    (hcol : m.fmt.columns.get? i = some nm)
    (hfmt : m.fmt.format.get? i = some c)
    (helem : m.elements.get? i = some v)
    (hwf : elemWF c v = true) :
    msgbufValue1 m i = some (encSlot v) := by
  have hmul : m.fmt.msg_mults.get? i = some (charMult c) := by
    rw [hmm, List.get?_map, hfmt]
    rfl
  have hgf := getField_spec m i c v nm hap hnd hnf hmm hcol hfmt helem hwf
  have hsubst : (if nm = "Mode" ∧ m.fmt.columns.contains "ModeNum" then "ModeNum" else nm) = nm := by
    rw [if_neg]
    rintro ⟨h1, h2⟩
    exact hmode ⟨h1 ▸ List.get?_mem hcol, List.elem_iff.mp h2⟩
  by_cases hca : c = 'a'
  · subst hca
    obtain ⟨xs, rfl, _, _⟩ := elemWF_arr v hwf
    have hcm : charMult 'a' = none := rfl
    rw [hcm] at hmul
    simp only [msgbufValue1, hmul, hcol, Option.bind_eq_bind, Option.some_bind]
    rw [hsubst, hgf]
    simp only [Option.some_bind]
    rfl
  · obtain ⟨st, hst⟩ := elemWF_sType c v hwf
    cases st with
    | sint k =>
      obtain ⟨e, rfl, _, _⟩ := elemWF_sint c k v hca hst hwf
      rcases (sint_facts c k hst).2 with ⟨hcm, _⟩ | ⟨mu, hcm, _, hmu0, hmu1⟩
      · rw [hcm] at hmul
        have hgv : gfVal c (DFValue.i e) = .i e := by simp only [gfVal, hcm]
        rw [hgv] at hgf
        simp only [msgbufValue1, hmul, hcol, Option.bind_eq_bind, Option.some_bind]
        rw [hsubst, hgf]
        simp only [Option.some_bind]
        rfl
      · rw [hcm] at hmul
        have hgv : gfVal c (DFValue.i e) = .q ((e : ℚ) / (1 / mu)) := by
          simp only [gfVal, hcm]
          rw [if_pos ⟨hmu0, hmu1⟩]
        rw [hgv] at hgf
        simp only [msgbufValue1, hmul, hcol, Option.bind_eq_bind, Option.some_bind]
        rw [hsubst, hgf]
        simp only [Option.some_bind]
        have harith : ((e : ℚ) / (1 / mu)) / mu = ((e : ℚ)) := by
          rw [one_div, div_inv_eq_mul]
          exact mul_div_cancel_right₀ _ (ne_of_gt hmu0)
        show some (DFValue.i (pyRound (((e : ℚ) / (1 / mu)) / mu))) = some (encSlot (.i e))
        rw [harith, pyRound_intCast]
        rfl
    | uint k =>
      obtain ⟨e, rfl, _, _⟩ := elemWF_uint c k v hca hst hwf
      rcases (uint_facts c k hst).2 with ⟨hcm, _⟩ | ⟨mu, hcm, _, hmu0, hmu1⟩
      · rw [hcm] at hmul
        have hgv : gfVal c (DFValue.i e) = .i e := by simp only [gfVal, hcm]
        rw [hgv] at hgf
        simp only [msgbufValue1, hmul, hcol, Option.bind_eq_bind, Option.some_bind]
        rw [hsubst, hgf]
        simp only [Option.some_bind]
        rfl
      · rw [hcm] at hmul
        have hgv : gfVal c (DFValue.i e) = .q ((e : ℚ) / (1 / mu)) := by
          simp only [gfVal, hcm]
          rw [if_pos ⟨hmu0, hmu1⟩]
        rw [hgv] at hgf
        simp only [msgbufValue1, hmul, hcol, Option.bind_eq_bind, Option.some_bind]
        rw [hsubst, hgf]
        simp only [Option.some_bind]
        have harith : ((e : ℚ) / (1 / mu)) / mu = ((e : ℚ)) := by
          rw [one_div, div_inv_eq_mul]
          exact mul_div_cancel_right₀ _ (ne_of_gt hmu0)
        show some (DFValue.i (pyRound (((e : ℚ) / (1 / mu)) / mu))) = some (encSlot (.i e))
        rw [harith, pyRound_intCast]
        rfl
    | flt k =>
      obtain ⟨x, rfl⟩ := elemWF_flt c k v hca hst hwf
      obtain ⟨_, _, hcm⟩ := flt_facts c k hst
      rw [hcm] at hmul
      have hgv : gfVal c (DFValue.q x) = .q x := by simp only [gfVal, hcm]
      rw [hgv] at hgf
      simp only [msgbufValue1, hmul, hcol, Option.bind_eq_bind, Option.some_bind]
      rw [hsubst, hgf]
      simp only [Option.some_bind]
      rfl
    | strT k =>
      obtain ⟨bs, rfl, _⟩ := elemWF_strT c k v hca hst hwf
      obtain ⟨_, hcm⟩ := strT_facts c k hst
      rw [hcm] at hmul
      have hgv : gfVal c (DFValue.s bs) = .s (nullTerm bs) := by simp only [gfVal, hcm]
      rw [hgv] at hgf
      simp only [msgbufValue1, hmul, hcol, Option.bind_eq_bind, Option.some_bind]
      rw [hsubst, hgf]
      simp only [Option.some_bind]
      rfl

/-- The `get_msgbuf` loop over in-range column indices. -/
theorem msgbufValues_spec (m : DFMessage) (h : WFMessage m) :
    ∀ (idxs : List Nat), (∀ i ∈ idxs, i < m.fmt.format.length) →
      msgbufValues m idxs = some (idxs.map (encAt m)) := by
  obtain ⟨hap, _, hnm, hnd, hmode, hlenC, hlenE, hmm, _, _, hwfall⟩ := h
  have hnf : ¬ m.fmt.name = "FILE" := by
    intro hx
    exact hnm (by rw [hx]; simp)
  have hmml : m.fmt.msg_mults.length = m.fmt.format.length := by
    rw [hmm, List.length_map]
  intro idxs
  induction idxs with
  | nil => intro _; rfl
  | cons i rest ih =>
    intro hin
    have hi : i < m.fmt.format.length := hin i (List.mem_cons_self i rest)
    obtain ⟨c, hfmt⟩ : ∃ c, m.fmt.format.get? i = some c := ⟨_, List.get?_eq_get hi⟩
    obtain ⟨v, helem⟩ : ∃ v, m.elements.get? i = some v :=
      ⟨_, List.get?_eq_get (by omega)⟩
    obtain ⟨nm, hcol⟩ : ∃ nm, m.fmt.columns.get? i = some nm :=
      ⟨_, List.get?_eq_get (by omega)⟩
    have hwf : elemWF c v = true := by
      apply hwfall (c, v)
      rw [List.zip_eq_zipWith]
      exact List.get?_mem (get?_zipWith_some Prod.mk _ _ i c v hfmt helem)
    have hstep := msgbufValue1_spec m i c v nm hap hnd hnf hmm hmode hcol hfmt helem hwf
    have hnskip : ¬ (m.fmt.msg_mults.length ≤ i) := by omega
    show (if m.fmt.msg_mults.length ≤ i then msgbufValues m rest else _) = _
    rw [if_neg hnskip]
    show (do
      let v ← msgbufValue1 m i
      let vs ← msgbufValues m rest
      pure (v :: vs)) = _
    rw [hstep, ih (fun j hj => hin j (List.mem_cons_of_mem i hj))]
    simp only [Option.bind_eq_bind, Option.some_bind]
    have henc : encAt m i = encSlot v := by
      unfold encAt
      rw [helem]
    rw [List.map_cons, henc]
    rfl

/-- The indexed encode over the whole range is the elementwise encode. -/
theorem range_map_encAt (m : DFMessage)
    (hlenC : m.fmt.format.length = m.fmt.columns.length)
    (hlenE : m.elements.length = m.fmt.format.length) :
    (List.range m.fmt.columns.length).map (encAt m) = m.elements.map encSlot := by
  apply List.ext_get?
  intro j
  rw [List.get?_map, List.get?_map]
  by_cases hj : j < m.fmt.columns.length
  · rw [List.get?_range hj]
    obtain ⟨v, hv⟩ : ∃ v, m.elements.get? j = some v :=
      ⟨_, List.get?_eq_get (by omega)⟩
    rw [hv]
    simp only [Option.map_some', Option.some.injEq]
    unfold encAt
    rw [hv]
  · have h1 : (List.range m.fmt.columns.length).get? j = none := by
      rw [List.get?_eq_none]
      simpa using hj
    have h2 : m.elements.get? j = none := by
      rw [List.get?_eq_none]
      omega
    rw [h1, h2]
    rfl

/-- `get_msgbuf` of a well-formed message: the header then the slots. -/
theorem getMsgbuf_spec (m : DFMessage) (h : WFMessage m) :
    getMsgbuf m = some (WItem.byte 0xA3 :: WItem.byte 0x95 :: WItem.byte m.fmt.type ::
      (List.zipWith slotW m.fmt.format m.elements).flatten) := by
  obtain ⟨hap, hty, hnm, hnd, hmode, hlenC, hlenE, hmm, hl3, hws, hwfall⟩ := h
  have hvals := msgbufValues_spec m
    ⟨hap, hty, hnm, hnd, hmode, hlenC, hlenE, hmm, hl3, hws, hwfall⟩
    (List.range m.fmt.columns.length)
    (fun i hi => by rw [hlenC]; exact List.mem_range.mp hi)
  rw [range_map_encAt m hlenC hlenE] at hvals
  have hpk := packSeq_spec m.fmt.format m.elements hlenE.symm hwfall
  simp only [getMsgbuf, hvals, Option.bind_eq_bind, Option.some_bind]
  rw [if_pos hty, hpk]
  simp only [Option.some_bind]
  rfl

/-- The resync loop succeeds immediately on a fresh reader whose buffer
starts with the magic and a registered type. -/
theorem skipLoop_found (fuel : Nat) (fmts : List (Nat × DFFormat)) (fmt : DFFormat)
    (ty : Nat) (tail : List WItem) (hreg : lookupAssoc fmts ty = some fmt) :
    skipLoop (fuel + 1)
      (initReader fmts (.byte 0xA3 :: .byte 0x95 :: .byte ty :: tail)) none =
    ({ initReader fmts (.byte 0xA3 :: .byte 0x95 :: .byte ty :: tail) with
        prev_type := some ty }, some ty) := by
  simp only [skipLoop, initReader, skipEmitState, List.length_cons]
  rw [if_neg (by omega), if_pos (show
    ((WItem.byte 0xA3 :: WItem.byte 0x95 :: WItem.byte ty :: tail).get? 0).bind witemByte? =
        some 0xA3 ∧
      ((WItem.byte 0xA3 :: WItem.byte 0x95 :: WItem.byte ty :: tail).get? (0 + 1)).bind
          witemByte? = some 0x95 from ⟨rfl, rfl⟩)]
  have hsc : ((WItem.byte 0xA3 :: WItem.byte 0x95 :: WItem.byte ty :: tail).get? (0 + 2)).bind
      witemByte? = some ty := rfl
  simp only [hsc, hreg, Option.isSome_some]
  rw [if_pos trivial]

/-- `decode(encode(R))` of a well-formed message: the buffer parses in one
step to the format's elements after the slot decodes. -/
theorem roundTrip_spec (m : DFMessage) (h : WFMessage m) :
    roundTrip m = some ⟨m.fmt, List.zipWith decSlot m.fmt.format m.elements, true⟩ := by
  obtain ⟨hap, hty, hnm, hnd, hmode, hlenC, hlenE, hmm, hl3, hws, hwfall⟩ := h
  have hbuf := getMsgbuf_spec m
    ⟨hap, hty, hnm, hnd, hmode, hlenC, hlenE, hmm, hl3, hws, hwfall⟩
  have hwl : (List.zipWith slotW m.fmt.format m.elements).flatten.length = m.fmt.len - 3 := by
    have hfl := flatten_slotW_length m.fmt.format m.elements hlenE.symm hwfall
    rw [hws] at hfl
    injection hfl with hfl
    exact hfl.symm
  have hlook : lookupAssoc [(m.fmt.type, m.fmt)] m.fmt.type = some m.fmt := by
    unfold lookupAssoc
    rw [List.find?_cons_of_pos _ (by simp)]
    rfl
  have hunp := unpackSeq_spec m.fmt.format m.elements hlenE.symm hwfall
  have hat := applyATransform_zip m.fmt m.elements hlenE.symm hwfall
  have hFMT : ¬ m.fmt.name = "FMT" := by
    intro hx
    exact hnm (by rw [hx]; simp)
  have hFMTU : ¬ m.fmt.name = "FMTU" := by
    intro hx
    exact hnm (by rw [hx]; simp)
  unfold roundTrip
  rw [hbuf]
  simp only [Option.bind_eq_bind, Option.some_bind]
  rw [parseNextF]
  rw [show (initReader [(m.fmt.type, m.fmt)]
      (WItem.byte 0xA3 :: WItem.byte 0x95 :: WItem.byte m.fmt.type ::
        (List.zipWith slotW m.fmt.format m.elements).flatten)).data_len =
    (List.zipWith slotW m.fmt.format m.elements).flatten.length + 1 + 1 + 1 from rfl]
  rw [show (List.zipWith slotW m.fmt.format m.elements).flatten.length + 1 + 1 + 1 =
    ((List.zipWith slotW m.fmt.format m.elements).flatten.length + 1 + 1) + 1 from rfl]
  rw [skipLoop_found _ _ m.fmt m.fmt.type _ hlook]
  simp only [initReader, List.length_cons]
  simp only [hlook]
  rw [if_neg (show ¬ ((List.zipWith slotW m.fmt.format m.elements).flatten.length +
    1 + 1 + 1 - (0 + 3) < m.fmt.len - 3) from by omega)]
  simp only [List.drop_succ_cons, List.drop_zero]
  rw [← hwl, List.take_length]
  simp only [hunp]
  rw [hat, if_neg hFMT]
  simp only [hFMTU, ite_false]
  rfl

/-- C1 (amended): for a well-formed message — multipliers applied on
access, packable type id, name none of `FMT`/`FMTU`/`UNIT`/`MULT` (nor
`FILE`, whose raw `Z` column keeps pad bytes), duplicate-free columns not
containing both `Mode` and `ModeNum` (`get_msgbuf` silently substitutes
`ModeNum` for `Mode`), coherent lengths and `len` field, and elements in
`struct.pack` range with no string truncation — encoding with `get_msgbuf`
and decoding with the binary parser yields a message that agrees with the
original on every column under `__getattr__` access. -/
theorem c1_roundtrip (m : DFMessage) (h : WFMessage m) :
    ∃ dec, roundTrip m = some dec ∧ dec.fmt = m.fmt ∧
      ∀ nm ∈ m.fmt.columns, getField dec nm = getField m nm := by
  refine ⟨⟨m.fmt, List.zipWith decSlot m.fmt.format m.elements, true⟩,
    roundTrip_spec m h, rfl, ?_⟩
  obtain ⟨hap, hty, hnm, hnd, hmode, hlenC, hlenE, hmm, hl3, hws, hwfall⟩ := h
  have hnf : ¬ m.fmt.name = "FILE" := by
    intro hx
    exact hnm (by rw [hx]; simp)
  intro nm hmem
  obtain ⟨i, hcol⟩ := List.mem_iff_get?.mp hmem
  have hic : i < m.fmt.columns.length := by
    by_contra hge
    push_neg at hge
    rw [List.get?_eq_none.mpr hge] at hcol
    cases hcol
  obtain ⟨c, hfmt⟩ : ∃ c, m.fmt.format.get? i = some c :=
    ⟨_, List.get?_eq_get (by omega)⟩
  obtain ⟨v, helem⟩ : ∃ v, m.elements.get? i = some v :=
    ⟨_, List.get?_eq_get (by omega)⟩
  have hwf : elemWF c v = true := by
    apply hwfall (c, v)
    rw [List.zip_eq_zipWith]
    exact List.get?_mem (get?_zipWith_some Prod.mk _ _ i c v hfmt helem)
  have hdece : (List.zipWith decSlot m.fmt.format m.elements).get? i = some (decSlot c v) :=
    get?_zipWith_some decSlot _ _ i c v hfmt helem
  have h1 := getField_spec ⟨m.fmt, List.zipWith decSlot m.fmt.format m.elements, true⟩
    i c (decSlot c v) nm rfl hnd hnf hmm hcol hfmt hdece (elemWF_decSlot c v hwf)
  have h2 := getField_spec m i c v nm hap hnd hnf hmm hcol hfmt helem hwf
  rw [h1, h2, gfVal_decSlot c v hwf]

/-- The two-column `Mode`/`ModeNum` format of the counterexample. -/
def c1fmtMode : DFFormat :=
  { type := 1, name := "T", len := 5, format := ['B', 'B'],
    columns := ["Mode", "ModeNum"], msg_mults := [none, none],
    instance_field := none, instance_ofs := 0, instance_len := 0, units := none }

/-- A message whose `Mode` and `ModeNum` columns differ. -/
def c1cex : DFMessage := ⟨c1fmtMode, [.i 5, .i 7], true⟩

/-- What its round trip decodes to. -/
def c1decoded : DFMessage := ⟨c1fmtMode, [.i 7, .i 7], true⟩

/-- C1 (counterexample): `get_msgbuf` reads the `Mode` column through
`ModeNum` when both exist, so a non-schema message in full `struct.pack`
range round-trips to different `__getattr__` values: `Mode` is 5 before and
7 after. -/
theorem c1_mode_counterexample :
    c1cex.fmt.name ∉ (["FMT", "FMTU", "UNIT", "MULT"] : List String) ∧
    roundTrip c1cex = some c1decoded ∧
    getField c1cex "Mode" = some (.i 5) ∧
    getField c1decoded "Mode" = some (.i 7) := by
  with_unfolding_all decide

/-- The witness message: an unsigned byte, a centi-scaled int16, a short
string and a float. -/
def c1wit : DFMessage :=
  ⟨{ type := 7, name := "TST", len := 14, format := ['B', 'c', 'n', 'f'],
     columns := ["A", "Bv", "Cs", "D"],
     msg_mults := [none, some (1/100), none, none],
     instance_field := none, instance_ofs := 0, instance_len := 0, units := none },
   [.i 7, .i (-250), .s (strBytes "hi"), .q (3/2)], true⟩

/-- C1 (witness): the concrete four-column message is well-formed and its
round trip agrees on every column. -/
theorem c1_roundtrip_witness :
    WFMessage c1wit ∧
    ∃ dec, roundTrip c1wit = some dec ∧ dec.fmt = c1wit.fmt ∧
      ∀ nm ∈ c1wit.fmt.columns, getField dec nm = getField c1wit nm :=
  ⟨by with_unfolding_all decide, c1_roundtrip c1wit (by with_unfolding_all decide)⟩

end DF
